import Mathlib

/-!
# flatbuffer-code-generator-golang: schema parser and Go code generator

A shallow embedding of `main.go`.

* Go strings are modelled as lists of Unicode characters (`Str`).
* The four regular expressions of the program belong to a small fragment
  (literal characters, greedy `X+` and `X?` over a character class, capture
  groups around `X+`); `findStringSubmatch` is a leftmost-first backtracking
  matcher for that fragment, as Go's `regexp.FindStringSubmatch` is.
* `*Table` pointers are addresses into an explicit heap of `Table` objects.
* A Go run-time panic (slice or index out of range) is the result `none`.
* `strcase.ToCamel` belongs to a third-party library; the generator takes it
  as the parameter `toCamel`.
* The functions of the Go library the program calls (`strings.TrimSpace`,
  `strings.Split`, `strings.ReplaceAll`, `path.Base`, `path.Join`) are modelled
  after their documentation.
-/

namespace FlatGen

/-- Go strings, as lists of characters. -/
abbrev Str := List Char

/-! ## Library functions used by the program -/

/-- The predicate `unicode.IsSpace` on the code point of a character: the characters
`strings.TrimSpace` removes (`\t`, `\n`, `\v`, `\f`, `\r`, space, U+0085, U+00A0 and
the Unicode space separators). -/
def isSpace (c : Char) : Bool :=
  c.toNat = 0x09 || c.toNat = 0x0A || c.toNat = 0x0B || c.toNat = 0x0C || c.toNat = 0x0D
    || c.toNat = 0x20 || c.toNat = 0x85 || c.toNat = 0xA0 || c.toNat = 0x1680
    || (0x2000 ≤ c.toNat && c.toNat ≤ 0x200A)
    || c.toNat = 0x2028 || c.toNat = 0x2029 || c.toNat = 0x202F
    || c.toNat = 0x205F || c.toNat = 0x3000

/-- The function `strings.TrimSpace`: leading and trailing white space removed. -/
def trimSpace (s : Str) : Str :=
  ((s.dropWhile isSpace).reverse.dropWhile isSpace).reverse

/-- Worker of `stringsSplit`: `cur` is the segment read so far, reversed. -/
def splitGo (sep : Char) : Str → Str → List Str
  | [], cur => [cur.reverse]
  | c :: cs, cur => if c = sep then cur.reverse :: splitGo sep cs [] else splitGo sep cs (c :: cur)

/-- The function `strings.Split` for a one-character separator: the segments
between the separators; there is always at least one segment. -/
def stringsSplit (s : Str) (sep : Char) : List Str :=
  splitGo sep s []

/-- The slice expression `s[lo:hi]`; `none` is the out-of-range panic. -/
def slice (s : Str) (lo hi : Nat) : Option Str :=
  if lo ≤ hi ∧ hi ≤ s.length then some ((s.drop lo).take (hi - lo)) else none

/-! ## Regular expressions -/

/-- The class `\s` of Go's `regexp`, `[\t\n\f\r ]`, on code points. -/
def reSpace (c : Char) : Bool :=
  c.toNat = 0x09 || c.toNat = 0x0A || c.toNat = 0x0C || c.toNat = 0x0D || c.toNat = 0x20

/-- The class `\w` of Go's `regexp`, `[0-9A-Za-z_]`, on code points. -/
def reWord (c : Char) : Bool :=
  (0x30 ≤ c.toNat && c.toNat ≤ 0x39) || (0x41 ≤ c.toNat && c.toNat ≤ 0x5A)
    || (0x61 ≤ c.toNat && c.toNat ≤ 0x7A) || c.toNat = 0x5F

/-- The class `[\[\]\w]`. -/
def reTypeChar (c : Char) : Bool :=
  c.toNat = 0x5B || c.toNat = 0x5D || reWord c

/-- The class `.`: any character but the line feed. -/
def reAny (c : Char) : Bool :=
  !(c.toNat = 0x0A)

/-- One item of a regular expression of the fragment. -/
inductive ReItem where
  /-- A literal character. -/
  | lit (c : Char)
  /-- Greedy `X+` over a character class; `cap` says whether it is a capture group `(X+)`. -/
  | plus (cls : Char → Bool) (cap : Bool)
  /-- Greedy `X?` over a character class. -/
  | opt (cls : Char → Bool)

/-- The literal characters of a string, as regular-expression items. -/
def reLits (s : String) : List ReItem :=
  s.toList.map ReItem.lit

/-- Length of the longest prefix of `xs` within the class. -/
def runLength (cls : Char → Bool) : Str → Nat
  | [] => 0
  | x :: xs => if cls x then runLength cls xs + 1 else 0

/-- The alternatives of a greedy `X+`: the lengths `k`, `k-1`, ..., `1` are tried in
this order, and the first for which the rest `k` of the expression matches wins.
The result is the number of characters consumed and the captured groups. -/
def tryLens (rest : Str → Option (Nat × List Str)) (cap : Bool) (xs : Str) :
    Nat → Option (Nat × List Str)
  | 0 => none
  | k + 1 =>
    match rest (xs.drop (k + 1)) with
    | some (n, caps) => some (n + (k + 1), if cap then xs.take (k + 1) :: caps else caps)
    | none => tryLens rest cap xs k

/-- Backtracking match of the items at the start of `xs`: the number of characters
consumed and the captured groups of the first match in priority order. -/
def matchHere : List ReItem → Str → Option (Nat × List Str)
  | [], _ => some (0, [])
  | ReItem.lit _ :: _, [] => none
  | ReItem.lit c :: rs, x :: xs =>
    if x = c then
      match matchHere rs xs with
      | some (n, caps) => some (n + 1, caps)
      | none => none
    else none
  | ReItem.plus cls cap :: rs, xs =>
    tryLens (fun ys => matchHere rs ys) cap xs (runLength cls xs)
  | ReItem.opt _ :: rs, [] => matchHere rs []
  | ReItem.opt cls :: rs, x :: xs =>
    if cls x then
      match matchHere rs xs with
      | some (n, caps) => some (n + 1, caps)
      | none => matchHere rs (x :: xs)
    else matchHere rs (x :: xs)

/-- The method `FindStringSubmatch`: the leftmost match; the result holds the text of
the match followed by the captured groups, and is empty when nothing matches. -/
def findStringSubmatch (re : List ReItem) : Str → List Str
  | [] =>
    match matchHere re [] with
    | some (_, caps) => [] :: caps
    | none => []
  | x :: xs =>
    match matchHere re (x :: xs) with
    | some (n, caps) => (x :: xs).take n :: caps
    | none => findStringSubmatch re xs

/-- The expression `table\s+(\w+)\s?\{`. -/
def tableRe : List ReItem :=
  reLits "table" ++ [ReItem.plus reSpace false, ReItem.plus reWord true, ReItem.opt reSpace,
    ReItem.lit '{']

/-- The expression `(\w+)\s?\:\s?([\[\]\w]+)\s?\;`. -/
def fieldRe : List ReItem :=
  [ReItem.plus reWord true, ReItem.opt reSpace, ReItem.lit ':', ReItem.opt reSpace,
    ReItem.plus reTypeChar true, ReItem.opt reSpace, ReItem.lit ';']

/-- The expression `namespace\s+(.+)\;`. -/
def nameSpaceRe : List ReItem :=
  reLits "namespace" ++ [ReItem.plus reSpace false, ReItem.plus reAny true, ReItem.lit ';']

/-- The expression `root_type\s+(\w+)\;`. -/
def rootTypeRe : List ReItem :=
  reLits "root_type" ++ [ReItem.plus reSpace false, ReItem.plus reWord true, ReItem.lit ';']

/-! ## The matchers of `main.go` -/

/-- The function `findTable`. -/
def findTable (line : Str) : Str × Bool :=
  match findStringSubmatch tableRe line with
  | _ :: name :: _ => (name, true)
  | _ => ([], false)

/-- The function `findField`. -/
def findField (line : Str) : Str × Str × Bool :=
  match findStringSubmatch fieldRe line with
  | _ :: field :: fieldType :: _ => (field, fieldType, true)
  | _ => ([], [], false)

/-- The function `findNameSpace`. -/
def findNameSpace (line : Str) : Str × Bool :=
  match findStringSubmatch nameSpaceRe line with
  | _ :: ns :: _ => (ns, true)
  | _ => ([], false)

/-- The function `findRootType`. -/
def findRootType (line : Str) : Str × Bool :=
  match findStringSubmatch rootTypeRe line with
  | _ :: rootType :: _ => (rootType, true)
  | _ => ([], false)

/-- The function `startsWith`; `none` when the slice `input[0:len(substr)]` panics. -/
def startsWith (input substr : Str) : Option Bool :=
  if substr.length > input.length then some false
  else
    match slice input 0 substr.length with
    | none => none
    | some p => if p = substr then some true else some false

/-! ## The data model of `main.go` -/

/-- The struct `mappingVal`; its field `Type` is `Typ` here. -/
structure mappingVal where
  IsScalar : Bool
  Typ : Str
deriving DecidableEq

/-- The entries of the map `typeMapping`. -/
def typeMappingEntries : List (Str × mappingVal) :=
  [ ("long".toList, ⟨true, "int64".toList⟩),
    ("int".toList, ⟨true, "int32".toList⟩),
    ("float".toList, ⟨true, "float32".toList⟩),
    ("double".toList, ⟨true, "float64".toList⟩),
    ("bool".toList, ⟨true, "bool".toList⟩),
    ("string".toList, ⟨false, "string".toList⟩),
    ("[ubyte]".toList, ⟨false, "[]byte".toList⟩) ]

/-- Lookup of a key in a Go map literal: the first entry with that key. -/
def mapLookup (k : Str) : List (Str × mappingVal) → Option mappingVal
  | [] => none
  | (k', v) :: es => if k = k' then some v else mapLookup k es

/-- The index expression `typeMapping[k]`: a missing key gives the zero value. -/
def typeMapping (k : Str) : mappingVal :=
  match mapLookup k typeMappingEntries with
  | some v => v
  | none => ⟨false, []⟩

/-- The struct `Field`; its field `Type` is `Typ` here. -/
structure Field where
  Name : Str
  Typ : Str
deriving DecidableEq

/-- The struct `Table`, with the `*Field` pointers dereferenced: a `Field` object is
never written after it is appended. -/
structure Table where
  Name : Str
  Fields : List Field
deriving DecidableEq

/-- The struct `Fbs` as `generateGoCode` reads it, `*Table` pointers dereferenced. -/
structure Fbs where
  InputFile : Str
  OutputFile : Str
  SourceName : Str
  Package : Str
  NameSpace : Str
  RootType : Str
  Tables : List Table
deriving DecidableEq

/-- The state of the scanning loop of `main`: the heap of `Table` objects made by
`&Table{}` (the address of an object is its position in `heap`), the fields of
`output` (`Tables` holds addresses) and the local variable `pendingTable`
(`none` is `nil`). -/
structure ParseState where
  heap : List Table
  InputFile : Str
  OutputFile : Str
  SourceName : Str
  Package : Str
  NameSpace : Str
  RootType : Str
  Tables : List Nat
  pendingTable : Option Nat
deriving DecidableEq

/-! ## The scanning loop of `main` -/

/-- The state before the loop: `output` holds the three file names only. -/
def initState (inputFile outputFile sourceName : Str) : ParseState :=
  { heap := [], InputFile := inputFile, OutputFile := outputFile, SourceName := sourceName,
    Package := [], NameSpace := [], RootType := [], Tables := [], pendingTable := none }

/-- The body of the loop `for scanner.Scan()` on one line of text. -/
def processLine (st : ParseState) (text : Str) : Option ParseState :=
  let line := trimSpace text
  match startsWith line "//".toList with
  | none => none
  | some true => some st
  | some false =>
    match findNameSpace line with
    | (ns, true) =>
      let nameSpaceSplit := stringsSplit ns '.'
      match nameSpaceSplit[nameSpaceSplit.length - 1]? with
      | none => none
      | some pkg => some { st with NameSpace := ns, Package := pkg }
    | (_, false) =>
      match findTable line with
      | (table, true) =>
        if table = "Pagination".toList then some { st with pendingTable := none }
        else
          let addr := st.heap.length
          some { st with
            heap := st.heap ++ [{ Name := table, Fields := [] }]
            pendingTable := some addr
            Tables := st.Tables ++ [addr] }
      | (_, false) =>
        match findRootType line with
        | (rootType, true) => some { st with RootType := rootType }
        | (_, false) =>
          match findField line, st.pendingTable with
          | (fieldName, fieldType, true), some p =>
            match st.heap[p]? with
            | none => none
            | some t =>
              some { st with
                heap := st.heap.set p { t with Fields := t.Fields ++ [⟨fieldName, fieldType⟩] } }
          | _, _ => some st

/-- The loop `for scanner.Scan()` over the lines of the input. -/
def scanLoop (st : ParseState) : List Str → Option ParseState
  | [] => some st
  | text :: rest =>
    match processLine st text with
    | none => none
    | some st' => scanLoop st' rest

/-- Dereference of a list of `*Table` pointers; `none` is the nil-pointer panic. -/
def derefAll (heap : List Table) : List Nat → Option (List Table)
  | [] => some []
  | p :: ps =>
    match heap[p]?, derefAll heap ps with
    | some t, some ts => some (t :: ts)
    | _, _ => none

/-- The value `*output` handed to `generateGoCode` (before `OutputFile` is reset). -/
def ParseState.toFbs (st : ParseState) : Option Fbs :=
  match derefAll st.heap st.Tables with
  | none => none
  | some ts =>
    some { InputFile := st.InputFile, OutputFile := st.OutputFile, SourceName := st.SourceName,
           Package := st.Package, NameSpace := st.NameSpace, RootType := st.RootType,
           Tables := ts }

/-- The parser: the model built from the lines of the input. -/
def parseLines (inputFile outputFile sourceName : Str) (lines : List Str) : Option Fbs :=
  match scanLoop (initState inputFile outputFile sourceName) lines with
  | none => none
  | some st => st.toFbs

/-! ## The generator `generateGoCode` -/

/-- The first loop over `table.Fields`: the members of the carrier struct. -/
def genMembers (toCamel : Str → Str) (output : Str) (fields : List Field) : Str :=
  fields.foldl (fun output field =>
    output ++ ("\t".toList ++ toCamel field.Name ++ " ".toList ++ (typeMapping field.Typ).Typ
      ++ "\n".toList)) output

/-- The second loop over `table.Fields`: strings and byte vectors are built. -/
def genPayloads (toCamel : Str → Str) (table : Table) (output : Str) (fields : List Field) : Str :=
  fields.foldl (fun output field =>
    if (typeMapping field.Typ).Typ = "string".toList then
      output ++ (toCamel field.Name ++ " := builder.CreateString(value.".toList
        ++ toCamel field.Name ++ ")\n".toList)
    else if (typeMapping field.Typ).Typ = "[]byte".toList then
      let output := output ++ (toCamel table.Name ++ "Start".toList ++ toCamel field.Name
        ++ "Vector(builder, len(value.".toList ++ toCamel field.Name ++ "))\n".toList)
      let output := output ++ ("for i := len(value.".toList ++ toCamel field.Name
        ++ "); i >= 0; i-- \x7b\n".toList)
      let output := output ++ "builder.PrependByte(byte(i))\n\x7d\n".toList
      output ++ (field.Name ++ " := builder.EndVector(len(value.".toList
        ++ toCamel field.Name ++ "))\n".toList)
    else output) output

/-- The third loop over `table.Fields`: the fields are added to the open table. -/
def genAdds (toCamel : Str → Str) (table : Table) (output : Str) (fields : List Field) : Str :=
  fields.foldl (fun output field =>
    if (typeMapping field.Typ).IsScalar then
      output ++ (toCamel table.Name ++ "Add".toList ++ toCamel field.Name
        ++ "(builder, value.".toList ++ toCamel field.Name ++ ")\n".toList)
    else if (typeMapping field.Typ).Typ = "string".toList then
      output ++ (toCamel table.Name ++ "Add".toList ++ toCamel field.Name
        ++ "(builder, ".toList ++ toCamel field.Name ++ ")\n".toList)
    else if (typeMapping field.Typ).Typ = "[]byte".toList then
      output ++ (toCamel table.Name ++ "Add".toList ++ toCamel field.Name
        ++ "(builder, ".toList ++ field.Name ++ ")\n".toList)
    else output) output

/-- The fourth loop over `table.Fields`: the fields are read back. -/
def genReads (toCamel : Str → Str) (table : Table) (output : Str) (fields : List Field) : Str :=
  fields.foldl (fun output field =>
    if (typeMapping field.Typ).IsScalar then
      output ++ ("value.".toList ++ toCamel field.Name ++ " = new".toList ++ toCamel table.Name
        ++ ".".toList ++ toCamel field.Name ++ "()\n".toList)
    else if (typeMapping field.Typ).Typ = "string".toList then
      output ++ ("value.".toList ++ toCamel field.Name ++ " = string(new".toList
        ++ toCamel table.Name ++ ".".toList ++ toCamel field.Name ++ "())\n".toList)
    else output) output

/-- The body of the loop `for _, table := range fbs.Tables`. -/
def genTable (toCamel : Str → Str) (output : Str) (table : Table) : Str :=
  let s := "type X".toList ++ toCamel table.Name ++ " struct \x7b\n".toList
  let output := output ++ s
  let output := genMembers toCamel output table.Fields
  let output := output ++ "\x7d\n".toList
  let output := output ++ ("// Create to build flat buf binary - ".toList ++ toCamel table.Name
    ++ "\n".toList)
  let output := output ++ ("func (value *X".toList ++ toCamel table.Name
    ++ ") Create() []byte \x7b\n".toList)
  let output := output ++ "builder := flatbuffers.NewBuilder(1024)\n".toList
  let output := genPayloads toCamel table output table.Fields
  let output := output ++ (toCamel table.Name ++ "Start(builder)\n".toList)
  let output := genAdds toCamel table output table.Fields
  let output := output ++ ("new".toList ++ toCamel table.Name ++ " := ".toList
    ++ toCamel table.Name ++ "End(builder)\n".toList)
  let output := output ++ ("builder.Finish(new".toList ++ toCamel table.Name ++ ")\n".toList)
  let output := output ++ "buf := builder.FinishedBytes()\n".toList
  let output := output ++ "return buf\n".toList
  let output := output ++ "\x7d\n\n".toList
  let output := output ++ ("// Read to Read ".toList ++ toCamel table.Name
    ++ " from bytes\n".toList)
  let output := output ++ ("func (value *X".toList ++ toCamel table.Name
    ++ ") Read(buf []byte) *X".toList ++ toCamel table.Name ++ " \x7b\n".toList)
  let output := output ++ ("new".toList ++ toCamel table.Name ++ " := GetRootAs".toList
    ++ toCamel table.Name ++ "(buf, 0)\n".toList)
  let output := output ++ ("if new".toList ++ toCamel table.Name
    ++ " == nil \x7b\nreturn nil\n\x7d\n".toList)
  let output := genReads toCamel table output table.Fields
  let output := output ++ "return value\n".toList
  output ++ "\x7d\n".toList

/-- The function `generateGoCode`: the text `output` handed to `format.Source`. -/
def generateGoCode (toCamel : Str → Str) (fbs : Fbs) : Str :=
  let output : Str := []
  let output := output ++ ("// Code generated by flat-code-gen-fo. DO NOT EDIT.\n// source: ".toList
    ++ fbs.SourceName ++ "\n\n".toList)
  let packageString := "package ".toList ++ fbs.Package ++ "\n\n".toList
  let output := output ++ packageString
  let importString :=
    "import (\n\tflatbuffers \"github.com/google/flatbuffers/go\"\n)\n\n".toList
  let output := output ++ importString
  fbs.Tables.foldl (genTable toCamel) output

/-! ## The claims' vocabulary -/

/-- The name captured from a line handled as a table line: the trimmed line does not
start with `//`, does not match the namespace pattern and matches the table pattern. -/
def tableLineName (text : Str) : Option Str :=
  let line := trimSpace text
  if "//".toList.isPrefixOf line then none
  else if (findNameSpace line).2 then none
  else if (findTable line).2 then some (findTable line).1
  else none

/-- The field declared by a line handled as a field line: the trimmed line does not
start with `//`, matches none of the namespace, table and root_type patterns and
matches the field pattern. -/
def fieldLineDef (text : Str) : Option Field :=
  let line := trimSpace text
  if "//".toList.isPrefixOf line then none
  else if (findNameSpace line).2 then none
  else if (findTable line).2 then none
  else if (findRootType line).2 then none
  else if (findField line).2.2 then some ⟨(findField line).1, (findField line).2.1⟩
  else none

/-- The fields of the lines handled as field lines, up to the next line handled as a
table line. -/
def specFieldsOf (rest : List Str) : List Field :=
  (rest.takeWhile (fun l => (tableLineName l).isNone)).filterMap fieldLineDef

/-- The tables the claims describe: one per line handled as a table line whose name is
not `Pagination`, with the fields of the field lines up to the next table line. -/
def specTables : List Str → List Table
  | [] => []
  | l :: rest =>
    match tableLineName l with
    | some name =>
      if name = "Pagination".toList then specTables rest
      else ⟨name, specFieldsOf rest⟩ :: specTables rest
    | none => specTables rest

/-! ## Properties of the library functions -/

theorem startsWith_eq (input substr : Str) :
    startsWith input substr = some (substr.isPrefixOf input) := by
  unfold startsWith slice
  by_cases h : substr.length > input.length
  · simp only [h, if_true]
    congr 1
    symm
    rw [Bool.eq_false_iff]
    intro hp
    have := (List.isPrefixOf_iff_prefix.mp hp).length_le
    omega
  · have h' : substr.length ≤ input.length := by omega
    simp only [h, if_false, Nat.zero_le, h', and_self, if_true, List.drop_zero, Nat.sub_zero]
    by_cases hp : List.take substr.length input = substr
    · simp only [hp, if_true]
      congr 1
      symm
      rw [List.isPrefixOf_iff_prefix, List.prefix_iff_eq_take]
      exact hp.symm
    · simp only [hp, if_false]
      congr 1
      symm
      rw [Bool.eq_false_iff, Ne, List.isPrefixOf_iff_prefix, List.prefix_iff_eq_take]
      exact fun h => hp h.symm

theorem splitGo_ne_nil (sep : Char) (s cur : Str) : splitGo sep s cur ≠ [] := by
  induction s generalizing cur with
  | nil => simp [splitGo]
  | cons c cs ih =>
    unfold splitGo
    split
    · simp
    · exact ih _

theorem stringsSplit_last_isSome (s : Str) (sep : Char) :
    ∃ pkg, (stringsSplit s sep)[(stringsSplit s sep).length - 1]? = some pkg := by
  have h := splitGo_ne_nil sep s []
  unfold stringsSplit
  have hl : 0 < (splitGo sep s []).length := List.length_pos.mpr h
  exact ⟨(splitGo sep s [])[(splitGo sep s []).length - 1], by
    rw [List.getElem?_eq_getElem]⟩

/-! ## One step of the scanning loop, by kind of line -/

theorem processLine_table (st : ParseState) {text : Str} (name : Str)
    (h : tableLineName text = some name) (hn : name ≠ "Pagination".toList) :
    processLine st text = some { st with
      heap := st.heap ++ [{ Name := name, Fields := [] }]
      pendingTable := some st.heap.length
      Tables := st.Tables ++ [st.heap.length] } := by
  unfold tableLineName at h
  unfold processLine
  simp only [startsWith_eq]
  rcases hc : ("//".toList.isPrefixOf (trimSpace text)) with _ | _
  · rcases hns : findNameSpace (trimSpace text) with ⟨ns, b⟩
    rcases htb : findTable (trimSpace text) with ⟨tb, b'⟩
    cases b <;> cases b' <;> simp_all
  · simp only [hc, if_true] at h
    cases h

theorem processLine_pagination (st : ParseState) {text : Str}
    (h : tableLineName text = some "Pagination".toList) :
    processLine st text = some { st with pendingTable := none } := by
  unfold tableLineName at h
  unfold processLine
  simp only [startsWith_eq]
  rcases hc : ("//".toList.isPrefixOf (trimSpace text)) with _ | _
  · rcases hns : findNameSpace (trimSpace text) with ⟨ns, b⟩
    rcases htb : findTable (trimSpace text) with ⟨tb, b'⟩
    cases b <;> cases b' <;> simp_all
  · simp only [hc, if_true] at h
    cases h

theorem processLine_field (st : ParseState) {text : Str} (f : Field) {p : Nat} {t : Table}
    (hf : fieldLineDef text = some f)
    (hp : st.pendingTable = some p) (ht : st.heap[p]? = some t) :
    processLine st text = some { st with
      heap := st.heap.set p { t with Fields := t.Fields ++ [f] } } := by
  unfold fieldLineDef at hf
  unfold processLine
  simp only [startsWith_eq]
  rcases hc : ("//".toList.isPrefixOf (trimSpace text)) with _ | _
  · rcases hns : findNameSpace (trimSpace text) with ⟨ns, b⟩
    rcases htb : findTable (trimSpace text) with ⟨tb, b'⟩
    rcases hrt : findRootType (trimSpace text) with ⟨rt, b''⟩
    rcases hfd : findField (trimSpace text) with ⟨fn, ft, b3⟩
    cases b <;> cases b' <;> cases b'' <;> cases b3 <;> simp_all
  · simp only [hc, if_true] at hf
    cases hf

/-- The part of the state the table rule and the field rule read and write. -/
def ParseState.core (st : ParseState) : List Table × List Nat × Option Nat :=
  (st.heap, st.Tables, st.pendingTable)

theorem processLine_other (st : ParseState) {text : Str}
    (h : tableLineName text = none)
    (hf : fieldLineDef text = none ∨ st.pendingTable = none) :
    ∃ st', processLine st text = some st' ∧ st'.core = st.core := by
  unfold tableLineName at h
  unfold fieldLineDef at hf
  unfold processLine
  simp only [startsWith_eq]
  rcases hc : ("//".toList.isPrefixOf (trimSpace text)) with _ | _
  · rcases hns : findNameSpace (trimSpace text) with ⟨ns, b⟩
    rcases htb : findTable (trimSpace text) with ⟨tb, b'⟩
    rcases hrt : findRootType (trimSpace text) with ⟨rt, b''⟩
    rcases hfd : findField (trimSpace text) with ⟨fn, ft, b3⟩
    obtain ⟨pkg, hpkg⟩ := stringsSplit_last_isSome ns '.'
    have hc' : ¬ ("//".toList <+: trimSpace text) := fun hp => by
      rw [List.isPrefixOf_iff_prefix.mpr hp] at hc
      cases hc
    cases b <;> cases b' <;> cases b'' <;> cases b3 <;>
      simp_all [ParseState.core]
  · exact ⟨st, rfl, rfl⟩

/-! ## The invariant of the scanning loop -/

/-- Well-formed states: `Tables` holds the addresses of all `Table` objects in the
order of their allocation, and `pendingTable` is nil or the newest object. -/
def ParseState.WF (st : ParseState) : Prop :=
  st.Tables = List.range st.heap.length ∧
    ∀ p, st.pendingTable = some p → p + 1 = st.heap.length

/-- The tables with `fs` appended to the fields of the last one. -/
def extendLast : List Table → List Field → List Table
  | [], _ => []
  | [t], fs => [{ t with Fields := t.Fields ++ fs }]
  | t :: t' :: ts, fs => t :: extendLast (t' :: ts) fs

theorem extendLast_nil (h : List Table) : extendLast h [] = h := by
  induction h with
  | nil => rfl
  | cons t ts ih =>
    cases ts with
    | nil => simp [extendLast]
    | cons t' ts => simp only [extendLast, ih]

theorem extendLast_snoc (h : List Table) (t : Table) (fs : List Field) :
    extendLast (h ++ [t]) fs = h ++ [{ t with Fields := t.Fields ++ fs }] := by
  induction h with
  | nil => rfl
  | cons a as ih =>
    cases as with
    | nil => simp [extendLast]
    | cons a' as =>
      simp only [List.cons_append, extendLast] at ih ⊢
      exact congrArg (a :: ·) ih

theorem initState_WF (i o n : Str) : (initState i o n).WF := by
  constructor
  · rfl
  · intro p hp
    cases hp

theorem WF_of_core {st st' : ParseState} (h : st'.core = st.core) (hw : st.WF) : st'.WF := by
  simp only [ParseState.core, Prod.mk.injEq] at h
  obtain ⟨h1, h2, h3⟩ := h
  unfold ParseState.WF
  rw [h1, h2, h3]
  exact hw

theorem heap_snoc_of_pending {st : ParseState} (hw : st.WF) {p : Nat}
    (hp : st.pendingTable = some p) :
    ∃ init t, st.heap = init ++ [t] ∧ p = init.length := by
  have hl := hw.2 p hp
  have hne : st.heap ≠ [] := by
    intro h
    rw [h] at hl
    simp at hl
  refine ⟨st.heap.dropLast, st.heap.getLast hne, (List.dropLast_append_getLast hne).symm, ?_⟩
  rw [List.length_dropLast]
  omega

/-- The loop returns, keeps the invariant, and the tables it leaves are those on the
heap before (the pending one extended by the field lines up to the next table line)
followed by the tables of the lines. -/
theorem scanLoop_heap (ls : List Str) : ∀ st : ParseState, st.WF →
    ∃ st', scanLoop st ls = some st' ∧ st'.WF ∧
      st'.heap = (match st.pendingTable with
        | some _ => extendLast st.heap (specFieldsOf ls)
        | none => st.heap) ++ specTables ls := by
  induction ls with
  | nil =>
    intro st hw
    refine ⟨st, rfl, hw, ?_⟩
    cases st.pendingTable <;> simp [specFieldsOf, specTables, extendLast_nil]
  | cons l rest ih =>
    intro st hw
    rcases hT : tableLineName l with _ | name
    · -- not a table line
      have hspecT : specTables (l :: rest) = specTables rest := by
        simp only [specTables, hT]
      have hspecF : specFieldsOf (l :: rest) =
          (match fieldLineDef l with
            | some f => f :: specFieldsOf rest
            | none => specFieldsOf rest) := by
        unfold specFieldsOf
        rw [List.takeWhile_cons]
        simp only [hT, Option.isNone_none, if_true, List.filterMap_cons]
        cases fieldLineDef l <;> rfl
      rcases hF : fieldLineDef l with _ | f
      · obtain ⟨st1, h1, hc⟩ := processLine_other st hT (Or.inl hF)
        obtain ⟨st', h2, hw', hh⟩ := ih st1 (WF_of_core hc hw)
        refine ⟨st', by simp only [scanLoop, h1, h2], hw', ?_⟩
        simp only [ParseState.core, Prod.mk.injEq] at hc
        rw [hh, hc.1, hc.2.2, hspecT, hspecF, hF]
      · rcases hP : st.pendingTable with _ | p
        · obtain ⟨st1, h1, hc⟩ := processLine_other st hT (Or.inr hP)
          obtain ⟨st', h2, hw', hh⟩ := ih st1 (WF_of_core hc hw)
          refine ⟨st', by simp only [scanLoop, h1, h2], hw', ?_⟩
          simp only [ParseState.core, Prod.mk.injEq] at hc
          rw [hh, hc.1, hc.2.2, hspecT, hP]
        · obtain ⟨init, t, hheap, hlen⟩ := heap_snoc_of_pending hw hP
          have hget : st.heap[p]? = some t := by
            rw [hheap, hlen]
            simp
          have h1 := processLine_field st f hF hP hget
          have hset : st.heap.set p { t with Fields := t.Fields ++ [f] } =
              init ++ [{ t with Fields := t.Fields ++ [f] }] := by
            rw [hheap, hlen]
            simp
          rw [hset] at h1
          have hw1 : ({ st with heap := init ++ [{ t with Fields := t.Fields ++ [f] }] } :
              ParseState).WF := by
            constructor
            · show st.Tables = _
              rw [hw.1, hheap]
              simp
            · intro q hq
              have := hw.2 q hq
              rw [hheap] at this
              simpa using this
          obtain ⟨st', h2, hw', hh⟩ := ih _ hw1
          refine ⟨st', by simp only [scanLoop, h1, h2], hw', ?_⟩
          rw [hh, hspecT, hspecF, hF]
          simp only [hP, hheap, extendLast_snoc, List.append_assoc, List.singleton_append]
    · -- a table line
      have hspecF : specFieldsOf (l :: rest) = [] := by
        unfold specFieldsOf
        rw [List.takeWhile_cons]
        simp [hT]
      by_cases hn : name = "Pagination".toList
      · have h1 := processLine_pagination st (hn ▸ hT)
        have hw1 : ({ st with pendingTable := none } : ParseState).WF :=
          ⟨hw.1, fun p hp => by cases hp⟩
        obtain ⟨st', h2, hw', hh⟩ := ih _ hw1
        refine ⟨st', by simp only [scanLoop, h1, h2], hw', ?_⟩
        rw [hh, hspecF]
        simp only [specTables, hT, hn, if_true, extendLast_nil]
        cases st.pendingTable <;> rfl
      · have h1 := processLine_table st name hT hn
        have hw1 : ({ st with
            heap := st.heap ++ [{ Name := name, Fields := [] }]
            pendingTable := some st.heap.length
            Tables := st.Tables ++ [st.heap.length] } : ParseState).WF := by
          constructor
          · show st.Tables ++ [st.heap.length] = _
            rw [hw.1]
            simp [List.range_succ]
          · intro p hp
            simp only [Option.some.injEq] at hp
            simp [hp]
        obtain ⟨st', h2, hw', hh⟩ := ih _ hw1
        refine ⟨st', by simp only [scanLoop, h1, h2], hw', ?_⟩
        rw [hh, hspecF]
        simp only [specTables, hT, hn, if_false, extendLast_nil, extendLast_snoc,
          List.nil_append, List.append_assoc, List.singleton_append]
        cases st.pendingTable <;> rfl

theorem derefAll_range (heap pre : List Table) :
    derefAll (pre ++ heap) ((List.range heap.length).map (· + pre.length)) = some heap := by
  induction heap generalizing pre with
  | nil => rfl
  | cons t ts ih =>
    rw [List.length_cons, List.range_succ_eq_map, List.map_cons, List.map_map]
    have h := ih (pre ++ [t])
    simp only [List.append_assoc, List.singleton_append, List.length_append,
      List.length_singleton] at h
    have hf : ((fun x => x + pre.length) ∘ Nat.succ) = (fun x => x + (pre.length + 1)) := by
      funext x
      simp only [Function.comp, Nat.succ_eq_add_one]
      omega
    have hget : (pre ++ t :: ts)[0 + pre.length]? = some t := by
      rw [Nat.zero_add, List.getElem?_append_right (Nat.le_refl _), Nat.sub_self,
        List.getElem?_cons_zero]
    simp only [derefAll, hf, h, hget]

theorem toFbs_of_WF {st : ParseState} (hw : st.WF) :
    ∃ m, st.toFbs = some m ∧ m.Tables = st.heap ∧ m.Package = st.Package ∧
      m.NameSpace = st.NameSpace ∧ m.RootType = st.RootType ∧
      m.SourceName = st.SourceName := by
  have h := derefAll_range st.heap []
  simp only [List.nil_append, List.length_nil, Nat.add_zero, List.map_id'] at h
  unfold ParseState.toFbs
  rw [hw.1, h]
  exact ⟨_, rfl, rfl, rfl, rfl, rfl, rfl⟩

/-- The parser returns a model, and its tables are those the claims describe. -/
theorem parseLines_tables (i o n : Str) (lines : List Str) :
    ∃ m, parseLines i o n lines = some m ∧ m.Tables = specTables lines := by
  obtain ⟨st, h1, hw, hh⟩ := scanLoop_heap lines (initState i o n) (initState_WF i o n)
  obtain ⟨m, h2, ht, -⟩ := toFbs_of_WF hw
  refine ⟨m, by simp only [parseLines, h1, h2], ?_⟩
  rw [ht, hh]
  rfl

theorem specTables_names (ls : List Str) :
    (specTables ls).map (fun t => t.Name) =
      (ls.filterMap tableLineName).filter (fun nm => decide (nm ≠ "Pagination".toList)) := by
  induction ls with
  | nil => rfl
  | cons l rest ih =>
    rcases hT : tableLineName l with _ | name
    · simp only [specTables, hT, List.filterMap_cons, ih]
    · by_cases hn : name = "Pagination".toList
      · simp only [specTables, hT, hn, if_true, List.filterMap_cons, List.filter_cons, ih,
          ne_eq, not_true_eq_false, decide_False, Bool.false_eq_true, if_false]
      · simp only [specTables, hT, hn, if_false, List.filterMap_cons, List.filter_cons, ih,
          ne_eq, not_false_eq_true, decide_True, if_true, List.map_cons]

theorem processLine_namespace {st : ParseState} {text ns pkg : Str}
    (hc : "//".toList.isPrefixOf (trimSpace text) = false)
    (h : findNameSpace (trimSpace text) = (ns, true))
    (hp : (stringsSplit ns '.').getLast? = some pkg) :
    processLine st text = some { st with NameSpace := ns, Package := pkg } := by
  rw [List.getLast?_eq_getElem?] at hp
  unfold processLine
  simp only [startsWith_eq, hc, h, hp]

theorem processLine_rootType {st : ParseState} {text rt : Str}
    (hc : "//".toList.isPrefixOf (trimSpace text) = false)
    (hns : (findNameSpace (trimSpace text)).2 = false)
    (htb : (findTable (trimSpace text)).2 = false)
    (h : findRootType (trimSpace text) = (rt, true)) :
    processLine st text = some { st with RootType := rt } := by
  unfold processLine
  rcases hns' : findNameSpace (trimSpace text) with ⟨ns, b⟩
  rcases htb' : findTable (trimSpace text) with ⟨tb, b'⟩
  rw [hns'] at hns
  rw [htb'] at htb
  simp only at hns htb
  subst hns
  subst htb
  simp only [startsWith_eq, hc, hns', htb', h]

theorem processLine_comment {st : ParseState} {text : Str}
    (hc : "//".toList.isPrefixOf (trimSpace text) = true) :
    processLine st text = some st := by
  unfold processLine
  simp only [startsWith_eq, hc]

theorem processLine_unmatched {st : ParseState} {text : Str}
    (hc : "//".toList.isPrefixOf (trimSpace text) = false)
    (hns : (findNameSpace (trimSpace text)).2 = false)
    (htb : (findTable (trimSpace text)).2 = false)
    (hrt : (findRootType (trimSpace text)).2 = false)
    (hfd : (findField (trimSpace text)).2.2 = false) :
    processLine st text = some st := by
  unfold processLine
  rcases hns' : findNameSpace (trimSpace text) with ⟨ns, b⟩
  rcases htb' : findTable (trimSpace text) with ⟨tb, b'⟩
  rcases hrt' : findRootType (trimSpace text) with ⟨rt, b''⟩
  rcases hfd' : findField (trimSpace text) with ⟨fn, ft, b3⟩
  rw [hns'] at hns
  rw [htb'] at htb
  rw [hrt'] at hrt
  rw [hfd'] at hfd
  simp only at hns htb hrt hfd
  subst hns
  subst htb
  subst hrt
  subst hfd
  simp only [startsWith_eq, hc, hns', htb', hrt', hfd']

/-! ## The tables of a sequence of lines, piecewise -/

theorem specFieldsOf_append_table (a rest : List Str) (l : Str) {name : Str}
    (h : tableLineName l = some name) :
    specFieldsOf (a ++ l :: rest) = specFieldsOf a := by
  unfold specFieldsOf
  congr 1
  induction a with
  | nil => simp [List.takeWhile_cons, h]
  | cons x xs ih =>
    simp only [List.cons_append, List.takeWhile_cons]
    split
    · rw [ih]
    · rfl

theorem specTables_skip (mid rest : List Str) (h : ∀ l ∈ mid, tableLineName l = none) :
    specTables (mid ++ rest) = specTables rest := by
  induction mid with
  | nil => rfl
  | cons x xs ih =>
    have hx : tableLineName x = none := h x (List.mem_cons_self _ _)
    simp only [List.cons_append, specTables, hx]
    exact ih (fun l hl => h l (List.mem_cons_of_mem _ hl))

theorem specTables_append_pagination (a rest : List Str) (l : Str)
    (h : tableLineName l = some "Pagination".toList) :
    specTables (a ++ l :: rest) = specTables a ++ specTables rest := by
  induction a with
  | nil => simp [specTables, h]
  | cons x xs ih =>
    rcases hT : tableLineName x with _ | name
    · rw [List.cons_append]
      simp only [specTables, hT, ih]
    · rw [List.cons_append]
      by_cases hn : name = "Pagination".toList
      · simp only [specTables, hT, hn, if_true, ih]
      · simp only [specTables, hT, hn, if_false, ih,
          specFieldsOf_append_table xs rest l h, List.cons_append]

theorem specTables_no_pagination (ls : List Str) :
    ∀ t ∈ specTables ls, t.Name ≠ "Pagination".toList := by
  intro t ht
  have hm : t.Name ∈ (specTables ls).map (fun t => t.Name) := List.mem_map_of_mem _ ht
  rw [specTables_names, List.mem_filter] at hm
  simpa using hm.2

/-! ## Matching a namespace line -/

/-- The text `s1.s2.….sn` of the segments `s1`, …, `sn`. -/
def dotted : List Str → Str
  | [] => []
  | [s] => s
  | s :: s' :: rest => s ++ '.' :: dotted (s' :: rest)

theorem reWord_not_reSpace {c : Char} (h : reWord c = true) : reSpace c = false := by
  simp only [reWord, reSpace, Bool.or_eq_true, Bool.and_eq_true, decide_eq_true_eq] at h
  simp only [reSpace, Bool.or_eq_false_iff, decide_eq_false_iff_not]
  omega

theorem reWord_reAny {c : Char} (h : reWord c = true) : reAny c = true := by
  simp only [reWord, Bool.or_eq_true, Bool.and_eq_true, decide_eq_true_eq] at h
  simp only [reAny, Bool.not_eq_true', decide_eq_false_iff_not]
  omega

theorem reWord_ne_dot {c : Char} (h : reWord c = true) : c ≠ '.' := by
  intro hc
  subst hc
  revert h
  decide

theorem trimSpace_eq_self (a b : Char) (mid : Str) (ha : isSpace a = false)
    (hb : isSpace b = false) : trimSpace (a :: (mid ++ [b])) = a :: (mid ++ [b]) := by
  unfold trimSpace
  rw [List.dropWhile_cons_of_neg (by simp [ha])]
  have hr : (a :: (mid ++ [b])).reverse = b :: (a :: mid).reverse := by simp
  rw [hr, List.dropWhile_cons_of_neg (by simp [hb]), ← hr, List.reverse_reverse]

theorem matchHere_lits (lits : Str) (rs : List ReItem) (xs : Str) :
    matchHere (lits.map ReItem.lit ++ rs) (lits ++ xs) =
      (matchHere rs xs).map (fun r => (r.1 + lits.length, r.2)) := by
  induction lits with
  | nil =>
    cases h : matchHere rs xs <;> simp [h]
  | cons c cs ih =>
    rw [List.map_cons, List.cons_append, List.cons_append]
    simp only [matchHere, if_true, ih]
    cases h : matchHere rs xs with
    | none => rfl
    | some r =>
      simp only [Option.map_some', List.length_cons, Nat.add_assoc]

theorem runLength_all (cls : Char → Bool) (xs : Str) (h : ∀ c ∈ xs, cls c = true) :
    runLength cls xs = xs.length := by
  induction xs with
  | nil => rfl
  | cons x xs ih =>
    simp only [runLength, h x (List.mem_cons_self _ _), if_true, List.length_cons]
    rw [ih (fun c hc => h c (List.mem_cons_of_mem _ hc))]

theorem splitGo_segment (sep : Char) (s rest cur : Str) (h : ∀ c ∈ s, c ≠ sep) :
    splitGo sep (s ++ rest) cur = splitGo sep rest (s.reverse ++ cur) := by
  induction s generalizing cur with
  | nil => rfl
  | cons x xs ih =>
    have hx : x ≠ sep := h x (List.mem_cons_self _ _)
    rw [List.cons_append]
    simp only [splitGo, hx, if_false]
    rw [ih _ (fun c hc => h c (List.mem_cons_of_mem _ hc))]
    simp

theorem stringsSplit_dotted (segs : List Str) (hne : segs ≠ [])
    (h : ∀ s ∈ segs, ∀ c ∈ s, c ≠ '.') : stringsSplit (dotted segs) '.' = segs := by
  unfold stringsSplit
  induction segs with
  | nil => exact absurd rfl hne
  | cons s rest ih =>
    cases rest with
    | nil =>
      have := splitGo_segment '.' s [] [] (h s (List.mem_cons_self _ _))
      simp only [List.append_nil] at this
      simp only [dotted, this, splitGo, List.reverse_reverse]
    | cons s' rest =>
      simp only [dotted]
      rw [splitGo_segment '.' s _ [] (h s (List.mem_cons_self _ _))]
      simp only [splitGo, if_true, List.append_nil, List.reverse_reverse]
      rw [ih (by simp) (fun t ht => h t (List.mem_cons_of_mem _ ht))]

theorem findStringSubmatch_of_matchHere {re : List ReItem} {xs : Str} {n : Nat}
    {caps : List Str} (h : matchHere re xs = some (n, caps)) :
    findStringSubmatch re xs = xs.take n :: caps := by
  cases xs with
  | nil => simp only [findStringSubmatch, h, List.take_nil]
  | cons x xs => simp only [findStringSubmatch, h]

/-- The namespace pattern on `namespace N;`: the group captures `N`, when `N` is not
empty, does not start with white space and holds no line feed. -/
theorem findNameSpace_line (c : Char) (N : Str) (hc : reSpace c = false)
    (hany : ∀ d ∈ c :: N, reAny d = true) :
    findNameSpace ("namespace ".toList ++ (c :: N) ++ ";".toList) = (c :: N, true) := by
  have hline : "namespace ".toList ++ (c :: N) ++ ";".toList =
      "namespace".toList ++ (' ' :: (c :: (N ++ [';']))) := by
    simp
  have hre : nameSpaceRe = "namespace".toList.map ReItem.lit ++
      [ReItem.plus reSpace false, ReItem.plus reAny true, ReItem.lit ';'] := rfl
  have hrun : runLength reAny (c :: (N ++ [';'])) = N.length + 1 + 1 := by
    have : c :: (N ++ [';']) = (c :: N) ++ [';'] := rfl
    rw [this, runLength_all]
    · simp
    · intro d hd
      rcases List.mem_append.mp hd with hd | hd
      · exact hany d hd
      · rw [List.mem_singleton.mp hd]
        decide
  have hdrop : List.drop (N.length + 1 + 1) (c :: (N ++ [';'])) = [] := by
    apply List.drop_eq_nil_of_le
    simp
  have hdrop' : List.drop (N.length + 1) (c :: (N ++ [';'])) = [';'] := by
    simp
  have htake : List.take (N.length + 1) (c :: (N ++ [';'])) = c :: N := by
    simp
  have hinner : matchHere [ReItem.plus reAny true, ReItem.lit ';'] (c :: (N ++ [';'])) =
      some (1 + (N.length + 1), [c :: N]) := by
    simp only [matchHere, hrun, tryLens, hdrop, hdrop', htake, if_true]
  have htail : matchHere [ReItem.plus reSpace false, ReItem.plus reAny true, ReItem.lit ';']
      (' ' :: (c :: (N ++ [';']))) = some (1 + (N.length + 1) + 1, [c :: N]) := by
    have hrs : runLength reSpace (' ' :: (c :: (N ++ [';']))) = 1 := by
      have h32 : reSpace ' ' = true := by decide
      simp only [runLength, hc, h32, if_true]
      rfl
    rw [matchHere, hrs]
    simp only [tryLens, List.drop_succ_cons, List.drop_zero, hinner]
    rfl
  have hm := matchHere_lits "namespace".toList
    [ReItem.plus reSpace false, ReItem.plus reAny true, ReItem.lit ';']
    (' ' :: (c :: (N ++ [';'])))
  rw [htail, Option.map_some'] at hm
  unfold findNameSpace
  rw [hline, hre, findStringSubmatch_of_matchHere hm]

theorem dotted_chars (segs : List Str) (h : ∀ s ∈ segs, ∀ c ∈ s, reWord c = true) :
    ∀ c ∈ dotted segs, reWord c = true ∨ c = '.' := by
  induction segs with
  | nil =>
    intro c hc
    cases hc
  | cons s rest ih =>
    cases rest with
    | nil =>
      intro c hc
      exact Or.inl (h s (List.mem_cons_self _ _) c hc)
    | cons s' rest =>
      intro c hc
      simp only [dotted, List.mem_append, List.mem_cons] at hc
      rcases hc with hc | hc | hc
      · exact Or.inl (h s (List.mem_cons_self _ _) c hc)
      · exact Or.inr hc
      · exact ih (fun t ht => h t (List.mem_cons_of_mem _ ht)) c hc

theorem dotted_head (c : Char) (s : Str) (rest : List Str) :
    ∃ N, dotted ((c :: s) :: rest) = c :: N := by
  cases rest with
  | nil => exact ⟨s, rfl⟩
  | cons s' rest => exact ⟨s ++ '.' :: dotted (s' :: rest), rfl⟩

/-- A namespace line over a dotted identifier: the step it takes. -/
theorem processLine_dotted (st : ParseState) (segs : List Str) (hne : segs ≠ [])
    (hid : ∀ s ∈ segs, s ≠ [] ∧ ∀ c ∈ s, reWord c = true) :
    processLine st ("namespace ".toList ++ dotted segs ++ ";".toList) =
      some { st with NameSpace := dotted segs, Package := segs.getLast hne } := by
  obtain ⟨s, rest, rfl⟩ := List.exists_cons_of_ne_nil hne
  have hs := hid s (List.mem_cons_self _ _)
  obtain ⟨c, s', rfl⟩ := List.exists_cons_of_ne_nil hs.1
  obtain ⟨N, hN⟩ := dotted_head c s' rest
  have hcw : reWord c = true := hs.2 c (List.mem_cons_self _ _)
  have hchars := dotted_chars ((c :: s') :: rest) (fun t ht => (hid t ht).2)
  have hany : ∀ d ∈ c :: N, reAny d = true := by
    intro d hd
    rw [← hN] at hd
    rcases hchars d hd with hw | hdot
    · exact reWord_reAny hw
    · rw [hdot]
      decide
  have hfind := findNameSpace_line c N (reWord_not_reSpace hcw) hany
  have hline : "namespace ".toList ++ (c :: N) ++ ";".toList =
      'n' :: (("amespace ".toList ++ (c :: N)) ++ [';']) := by
    simp
  have htrim : trimSpace ("namespace ".toList ++ (c :: N) ++ ";".toList) =
      "namespace ".toList ++ (c :: N) ++ ";".toList := by
    rw [hline]
    exact trimSpace_eq_self _ _ _ (by decide) (by decide)
  have hsplit : (stringsSplit (c :: N) '.').getLast? =
      some (((c :: s') :: rest).getLast hne) := by
    rw [← hN, stringsSplit_dotted _ hne
      (fun t ht d hd => reWord_ne_dot ((hid t ht).2 d hd)), List.getLast?_eq_getLast _ hne]
  rw [hN]
  apply processLine_namespace
  · rw [htrim, hline]
    rfl
  · rw [htrim]
    exact hfind
  · exact hsplit

/-! ## The generated text, as the claims describe it -/

/-- The scalar schema types. -/
def scalarTypes : List Str :=
  ["long".toList, "int".toList, "float".toList, "double".toList, "bool".toList]

/-- Whether a schema type is one of the scalar types. -/
def isScalarType (ty : Str) : Bool :=
  decide (ty ∈ scalarTypes)

/-- The target type of a schema type; empty for a type the mapping does not know. -/
def targetType (ty : Str) : Str :=
  if ty = "long".toList then "int64".toList
  else if ty = "int".toList then "int32".toList
  else if ty = "float".toList then "float32".toList
  else if ty = "double".toList then "float64".toList
  else if ty = "bool".toList then "bool".toList
  else if ty = "string".toList then "string".toList
  else if ty = "[ubyte]".toList then "[]byte".toList
  else []

/-- The schema types the mapping knows. -/
def knownTypes : List Str :=
  scalarTypes ++ ["string".toList, "[ubyte]".toList]

/-- The member line of a field in the carrier struct. -/
def memberLine (toCamel : Str → Str) (f : Field) : Str :=
  "\t".toList ++ toCamel f.Name ++ " ".toList ++ targetType f.Typ ++ "\n".toList

/-- The carrier definition of a table. -/
def carrierText (toCamel : Str → Str) (T : Table) : Str :=
  "type X".toList ++ toCamel T.Name ++ " struct \x7b\n".toList
    ++ (T.Fields.map (memberLine toCamel)).flatten ++ "\x7d\n".toList

/-- The identifier a payload-construction line binds: the camel-cased name for a
string, the name as declared for a byte vector. -/
def boundIdent (toCamel : Str → Str) (f : Field) : Str :=
  if f.Typ = "string".toList then toCamel f.Name else f.Name

/-- The payload-construction lines of a field: `CreateString` for a `string` field,
`StartVector`, the loop and `EndVector` for a `[ubyte]` field, none otherwise. -/
def payloadLines (toCamel : Str → Str) (T : Table) (f : Field) : List Str :=
  if f.Typ = "string".toList then
    [boundIdent toCamel f ++ " := builder.CreateString(value.".toList ++ toCamel f.Name
      ++ ")\n".toList]
  else if f.Typ = "[ubyte]".toList then
    [toCamel T.Name ++ "Start".toList ++ toCamel f.Name ++ "Vector(builder, len(value.".toList
        ++ toCamel f.Name ++ "))\n".toList,
      "for i := len(value.".toList ++ toCamel f.Name ++ "); i >= 0; i-- \x7b\n".toList,
      "builder.PrependByte(byte(i))\n".toList,
      "\x7d\n".toList,
      boundIdent toCamel f ++ " := builder.EndVector(len(value.".toList ++ toCamel f.Name
        ++ "))\n".toList]
  else []

/-- The argument of the Add call of a field: the member of `value` for a scalar, the
identifier bound by the payload construction otherwise. -/
def addArg (toCamel : Str → Str) (f : Field) : Str :=
  if isScalarType f.Typ then "value.".toList ++ toCamel f.Name else boundIdent toCamel f

/-- The Add line of a field of a known type; no line for an unknown type. -/
def addLines (toCamel : Str → Str) (T : Table) (f : Field) : List Str :=
  if f.Typ ∈ knownTypes then
    [toCamel T.Name ++ "Add".toList ++ toCamel f.Name ++ "(builder, ".toList
      ++ addArg toCamel f ++ ")\n".toList]
  else []

/-- The lines of the body of the Create routine, in order. -/
def createLines (toCamel : Str → Str) (T : Table) : List Str :=
  ["builder := flatbuffers.NewBuilder(1024)\n".toList]
    ++ (T.Fields.map (payloadLines toCamel T)).flatten
    ++ [toCamel T.Name ++ "Start(builder)\n".toList]
    ++ (T.Fields.map (addLines toCamel T)).flatten
    ++ ["new".toList ++ toCamel T.Name ++ " := ".toList ++ toCamel T.Name
          ++ "End(builder)\n".toList,
        "builder.Finish(new".toList ++ toCamel T.Name ++ ")\n".toList,
        "buf := builder.FinishedBytes()\n".toList,
        "return buf\n".toList]

/-- The comment and the signature that open the Create routine. -/
def createHead (toCamel : Str → Str) (T : Table) : Str :=
  "// Create to build flat buf binary - ".toList ++ toCamel T.Name ++ "\n".toList
    ++ "func (value *X".toList ++ toCamel T.Name ++ ") Create() []byte \x7b\n".toList

/-- The Create routine of a table. -/
def createText (toCamel : Str → Str) (T : Table) : Str :=
  createHead toCamel T ++ (createLines toCamel T).flatten ++ "\x7d\n\n".toList

/-- The assignment of a field in the Read routine: a plain copy for a scalar, a copy
through `string(...)` for a `string`, nothing otherwise. -/
def readLines (toCamel : Str → Str) (T : Table) (f : Field) : List Str :=
  if isScalarType f.Typ then
    ["value.".toList ++ toCamel f.Name ++ " = new".toList ++ toCamel T.Name ++ ".".toList
      ++ toCamel f.Name ++ "()\n".toList]
  else if f.Typ = "string".toList then
    ["value.".toList ++ toCamel f.Name ++ " = string(new".toList ++ toCamel T.Name
      ++ ".".toList ++ toCamel f.Name ++ "())\n".toList]
  else []

/-- The comment and the signature that open the Read routine. -/
def readHead (toCamel : Str → Str) (T : Table) : Str :=
  "// Read to Read ".toList ++ toCamel T.Name ++ " from bytes\n".toList
    ++ "func (value *X".toList ++ toCamel T.Name ++ ") Read(buf []byte) *X".toList
    ++ toCamel T.Name ++ " \x7b\n".toList

/-- The lines of the body of the Read routine, in order. -/
def readBodyLines (toCamel : Str → Str) (T : Table) : List Str :=
  ["new".toList ++ toCamel T.Name ++ " := GetRootAs".toList ++ toCamel T.Name
        ++ "(buf, 0)\n".toList,
      "if new".toList ++ toCamel T.Name ++ " == nil \x7b\nreturn nil\n\x7d\n".toList]
    ++ (T.Fields.map (readLines toCamel T)).flatten
    ++ ["return value\n".toList]

/-- The Read routine of a table. -/
def readText (toCamel : Str → Str) (T : Table) : Str :=
  readHead toCamel T ++ (readBodyLines toCamel T).flatten ++ "\x7d\n".toList

/-- The block of a table: the carrier definition, the Create and the Read routine. -/
def tableBlock (toCamel : Str → Str) (T : Table) : Str :=
  carrierText toCamel T ++ createText toCamel T ++ readText toCamel T

/-- A camel-casing function for the examples: the first letter in upper case. -/
def upperFirst : Str → Str
  | [] => []
  | c :: cs => c.toUpper :: cs

/-- The header comment, the package declaration and the import block. -/
def preambleText (fbs : Fbs) : Str :=
  "// Code generated by flat-code-gen-fo. DO NOT EDIT.\n// source: ".toList ++ fbs.SourceName
    ++ "\n\n".toList ++ ("package ".toList ++ fbs.Package ++ "\n\n".toList)
    ++ "import (\n\tflatbuffers \"github.com/google/flatbuffers/go\"\n)\n\n".toList

/-! ## The type mapping -/

theorem typeMapping_Typ (ty : Str) : (typeMapping ty).Typ = targetType ty := by
  unfold typeMapping targetType
  simp only [typeMappingEntries, mapLookup]
  split_ifs <;> rfl

theorem typeMapping_IsScalar (ty : Str) : (typeMapping ty).IsScalar = isScalarType ty := by
  unfold typeMapping isScalarType scalarTypes
  simp only [typeMappingEntries, mapLookup]
  split_ifs with h1 h2 h3 h4 h5 h6 h7
  · subst h1
    decide
  · subst h2
    decide
  · subst h3
    decide
  · subst h4
    decide
  · subst h5
    decide
  · subst h6
    decide
  · subst h7
    decide
  · symm
    rw [decide_eq_false_iff_not]
    intro hm
    simp only [List.mem_cons, List.mem_singleton, List.not_mem_nil, or_false] at hm
    rcases hm with h | h | h | h | h
    · exact h1 h
    · exact h2 h
    · exact h3 h
    · exact h4 h
    · exact h5 h

theorem targetType_eq_string (ty : Str) :
    targetType ty = "string".toList ↔ ty = "string".toList := by
  unfold targetType
  constructor
  · intro h
    split_ifs at h with h1 h2 h3 h4 h5 h6 h7
    · exact absurd h (by decide)
    · exact absurd h (by decide)
    · exact absurd h (by decide)
    · exact absurd h (by decide)
    · exact absurd h (by decide)
    · exact h6
    · exact absurd h (by decide)
    · exact absurd h (by decide)
  · intro h
    subst h
    decide

theorem targetType_eq_bytes (ty : Str) :
    targetType ty = "[]byte".toList ↔ ty = "[ubyte]".toList := by
  unfold targetType
  constructor
  · intro h
    split_ifs at h with h1 h2 h3 h4 h5 h6 h7
    · exact absurd h (by decide)
    · exact absurd h (by decide)
    · exact absurd h (by decide)
    · exact absurd h (by decide)
    · exact absurd h (by decide)
    · exact absurd h (by decide)
    · exact h7
    · exact absurd h (by decide)
  · intro h
    subst h
    decide

theorem foldl_append_lines {α : Type} (g : α → Str) (xs : List α) (out : Str) :
    xs.foldl (fun o x => o ++ g x) out = out ++ (xs.map g).flatten := by
  induction xs generalizing out with
  | nil => simp
  | cons x xs ih =>
    simp only [List.foldl_cons, List.map_cons, List.flatten_cons, ih, List.append_assoc]


theorem mem_knownTypes (ty : Str) :
    ty ∈ knownTypes ↔
      isScalarType ty = true ∨ ty = "string".toList ∨ ty = "[ubyte]".toList := by
  unfold knownTypes isScalarType
  simp only [List.mem_append, List.mem_cons, List.mem_singleton, List.not_mem_nil, or_false,
    decide_eq_true_eq]

/-! ## The loops of the generator, as maps over the fields -/

theorem genMembers_eq (toCamel : Str → Str) (out : Str) (fields : List Field) :
    genMembers toCamel out fields = out ++ (fields.map (memberLine toCamel)).flatten := by
  unfold genMembers
  rw [← foldl_append_lines]
  congr 1
  funext o f
  simp only [memberLine, typeMapping_Typ]

theorem flatten_lines {α : Type} (g : α → List Str) (xs : List α) :
    ((xs.map g).flatten).flatten = (xs.map (fun x => (g x).flatten)).flatten := by
  rw [List.flatten_flatten, List.map_map]
  rfl

theorem genPayloads_eq (toCamel : Str → Str) (T : Table) (out : Str) (fields : List Field) :
    genPayloads toCamel T out fields =
      out ++ ((fields.map (payloadLines toCamel T)).flatten).flatten := by
  unfold genPayloads
  rw [flatten_lines, ← foldl_append_lines]
  congr 1
  funext o f
  simp only [typeMapping_Typ, targetType_eq_string, targetType_eq_bytes, payloadLines,
    boundIdent]
  split_ifs <;> simp

theorem genAdds_eq (toCamel : Str → Str) (T : Table) (out : Str) (fields : List Field) :
    genAdds toCamel T out fields =
      out ++ ((fields.map (addLines toCamel T)).flatten).flatten := by
  unfold genAdds
  rw [flatten_lines, ← foldl_append_lines]
  congr 1
  funext o f
  simp only [typeMapping_Typ, typeMapping_IsScalar, targetType_eq_string, targetType_eq_bytes,
    addLines, addArg, boundIdent, mem_knownTypes]
  split_ifs <;> simp_all

theorem genReads_eq (toCamel : Str → Str) (T : Table) (out : Str) (fields : List Field) :
    genReads toCamel T out fields =
      out ++ ((fields.map (readLines toCamel T)).flatten).flatten := by
  unfold genReads
  rw [flatten_lines, ← foldl_append_lines]
  congr 1
  funext o f
  simp only [typeMapping_Typ, typeMapping_IsScalar, targetType_eq_string, readLines]
  split_ifs <;> simp

/-- The text one table adds to the output. -/
theorem genTable_eq (toCamel : Str → Str) (out : Str) (T : Table) :
    genTable toCamel out T = out ++ tableBlock toCamel T := by
  unfold genTable tableBlock
  simp only [genMembers_eq, genPayloads_eq, genAdds_eq, genReads_eq, carrierText, createText,
    createHead, createLines, readText, readHead, readBodyLines, List.append_assoc,
    List.flatten_append, List.flatten_cons, List.flatten_nil, List.append_nil,
    List.singleton_append, List.cons_append, List.nil_append]

/-- The generated text: the preamble, then the block of each table in order. -/
theorem generateGoCode_eq (toCamel : Str → Str) (fbs : Fbs) :
    generateGoCode toCamel fbs =
      preambleText fbs ++ (fbs.Tables.map (tableBlock toCamel)).flatten := by
  unfold generateGoCode
  have hg : genTable toCamel = fun o T => o ++ tableBlock toCamel T := by
    funext o T
    exact genTable_eq toCamel o T
  simp only [hg, foldl_append_lines, preambleText, List.nil_append, List.append_assoc]

/-- The text of a model whose tables are `ts1`, `T`, `ts2`: the text for `ts1`, the
block of `T`, the blocks of `ts2`. -/
theorem generateGoCode_split (toCamel : Str → Str) (fbs : Fbs) (ts1 ts2 : List Table)
    (T : Table) :
    generateGoCode toCamel { fbs with Tables := ts1 ++ T :: ts2 } =
      generateGoCode toCamel { fbs with Tables := ts1 } ++ tableBlock toCamel T
        ++ (ts2.map (tableBlock toCamel)).flatten := by
  simp only [generateGoCode_eq, preambleText, List.map_append, List.map_cons,
    List.flatten_append, List.flatten_cons, List.append_assoc]

/-! ## The loop never panics -/

theorem startsWith_isSome (input substr : Str) : ∃ b, startsWith input substr = some b :=
  ⟨_, startsWith_eq input substr⟩

theorem scanLoop_isSome (i o n : Str) (lines : List Str) :
    ∃ st, scanLoop (initState i o n) lines = some st ∧ st.WF := by
  obtain ⟨st, h, hw, -⟩ := scanLoop_heap lines (initState i o n) (initState_WF i o n)
  exact ⟨st, h, hw⟩

/-! ## One step on a well-formed state -/

/-- The ways a step changes the heap of tables: not at all, by a new table without
fields at the end, or by one field appended to the last table. -/
def heapStep (h h' : List Table) : Prop :=
  h' = h ∨ (∃ name, h' = h ++ [⟨name, []⟩]) ∨
    ∃ init t f, h = init ++ [t] ∧ h' = init ++ [⟨t.Name, t.Fields ++ [f]⟩]

theorem processLine_WF (st : ParseState) (hw : st.WF) (l : Str) :
    ∃ st', processLine st l = some st' ∧ st'.WF ∧ st.Tables <+: st'.Tables ∧
      heapStep st.heap st'.heap := by
  rcases hT : tableLineName l with _ | name
  · rcases hF : fieldLineDef l with _ | f
    · obtain ⟨st1, h1, hc⟩ := processLine_other st hT (Or.inl hF)
      refine ⟨st1, h1, WF_of_core hc hw, ?_, ?_⟩
      · simp only [ParseState.core, Prod.mk.injEq] at hc
        rw [hc.2.1]
      · simp only [ParseState.core, Prod.mk.injEq] at hc
        exact Or.inl hc.1
    · rcases hP : st.pendingTable with _ | p
      · obtain ⟨st1, h1, hc⟩ := processLine_other st hT (Or.inr hP)
        refine ⟨st1, h1, WF_of_core hc hw, ?_, ?_⟩
        · simp only [ParseState.core, Prod.mk.injEq] at hc
          rw [hc.2.1]
        · simp only [ParseState.core, Prod.mk.injEq] at hc
          exact Or.inl hc.1
      · obtain ⟨init, t, hheap, hlen⟩ := heap_snoc_of_pending hw hP
        have hget : st.heap[p]? = some t := by
          rw [hheap, hlen]
          simp
        have h1 := processLine_field st f hF hP hget
        have hset : st.heap.set p { t with Fields := t.Fields ++ [f] } =
            init ++ [{ t with Fields := t.Fields ++ [f] }] := by
          rw [hheap, hlen]
          simp
        rw [hset] at h1
        refine ⟨_, h1, ?_, List.prefix_refl _, Or.inr (Or.inr ⟨init, t, f, hheap, rfl⟩)⟩
        constructor
        · show st.Tables = _
          rw [hw.1, hheap]
          simp
        · intro q hq
          have := hw.2 q hq
          rw [hheap] at this
          simpa using this
  · by_cases hn : name = "Pagination".toList
    · have h1 := processLine_pagination st (hn ▸ hT)
      exact ⟨_, h1, ⟨hw.1, fun p hp => by cases hp⟩, List.prefix_refl _, Or.inl rfl⟩
    · have h1 := processLine_table st name hT hn
      refine ⟨_, h1, ?_, List.prefix_append _ _, Or.inr (Or.inl ⟨name, rfl⟩)⟩
      constructor
      · show st.Tables ++ [st.heap.length] = _
        rw [hw.1]
        simp [List.range_succ]
      · intro p hp
        simp only [Option.some.injEq] at hp
        simp [hp]

theorem pending_last_of_WF {st : ParseState} (hw : st.WF) :
    st.pendingTable = none ∨ st.Tables.getLast? = st.pendingTable := by
  rcases hP : st.pendingTable with _ | p
  · exact Or.inl rfl
  · right
    have hl := hw.2 p hP
    rw [hw.1, ← hl, List.range_succ, List.getLast?_append, List.getLast?_singleton]
    rfl

/-- The leftmost match: `findStringSubmatch` returns the match at the first position
at which the expression matches. -/
theorem findStringSubmatch_leftmost (re : List ReItem) (xs : Str) (m : Str)
    (caps : List Str) (h : findStringSubmatch re xs = m :: caps) :
    ∃ k n, k ≤ xs.length ∧ matchHere re (xs.drop k) = some (n, caps) ∧
      ∀ j, j < k → matchHere re (xs.drop j) = none := by
  induction xs with
  | nil =>
    simp only [findStringSubmatch] at h
    rcases hm : matchHere re [] with _ | ⟨n, caps'⟩
    · rw [hm] at h
      cases h
    · rw [hm] at h
      simp only [List.cons.injEq] at h
      exact ⟨0, n, Nat.le_refl _, by rw [List.drop_zero, hm, h.2], fun j hj => by omega⟩
  | cons x xs ih =>
    simp only [findStringSubmatch] at h
    rcases hm : matchHere re (x :: xs) with _ | ⟨n, caps'⟩
    · rw [hm] at h
      obtain ⟨k, n, hk, hmk, hlt⟩ := ih h
      refine ⟨k + 1, n, by simp only [List.length_cons]; omega, by simpa using hmk, ?_⟩
      intro j hj
      cases j with
      | zero => simpa using hm
      | succ j =>
        rw [List.drop_succ_cons]
        exact hlt j (by omega)
    · rw [hm] at h
      simp only [List.cons.injEq] at h
      exact ⟨0, n, Nat.zero_le _, by rw [List.drop_zero, hm, h.2], fun j hj => by omega⟩

theorem findField_of_fieldLineDef {text : Str} {f : Field} (hf : fieldLineDef text = some f) :
    ∃ m rest, findStringSubmatch fieldRe (trimSpace text) = m :: f.Name :: f.Typ :: rest := by
  unfold fieldLineDef at hf
  simp only at hf
  split_ifs at hf with h1 h2 h3 h4 h5
  simp only [Option.some.injEq] at hf
  unfold findField at h5 hf
  rcases hm : findStringSubmatch fieldRe (trimSpace text) with _ | ⟨m, _ | ⟨a, _ | ⟨b, rest⟩⟩⟩
  · rw [hm] at h5
    cases h5
  · rw [hm] at h5
    cases h5
  · rw [hm] at h5
    cases h5
  · rw [hm] at hf
    simp only at hf
    rw [← hf]
    exact ⟨m, rest, rfl⟩

/-! ## Matching a field line -/

/-- Zero or one space. -/
def spc (b : Bool) : Str :=
  if b then [' '] else []

/-- The spelling of a field line: the name, the type and the three optional spaces. -/
def fieldLineText (n t : Str) (b1 b2 b3 : Bool) : Str :=
  n ++ (spc b1 ++ ':' :: (spc b2 ++ (t ++ (spc b3 ++ [';']))))

theorem runLength_append (cls : Char → Bool) (run rest : Str)
    (hall : ∀ c ∈ run, cls c = true) (hrest : ∀ c ∈ rest.head?, cls c = false) :
    runLength cls (run ++ rest) = run.length := by
  induction run with
  | nil =>
    cases rest with
    | nil => rfl
    | cons x xs =>
      have hx : cls x = false := hrest x (by simp)
      simp [runLength, hx]
  | cons x xs ih =>
    rw [List.cons_append]
    simp only [runLength, hall x (List.mem_cons_self _ _), if_true, List.length_cons]
    rw [ih (fun c hc => hall c (List.mem_cons_of_mem _ hc))]

/-- A greedy `X+` in front of a complete run of the class: the run is consumed whole
when the rest of the expression matches after it. -/
theorem matchHere_plus (cls : Char → Bool) (cap : Bool) (rs : List ReItem) (run rest : Str)
    (m : Nat) (caps : List Str) (hne : run ≠ []) (hall : ∀ c ∈ run, cls c = true)
    (hrest : ∀ c ∈ rest.head?, cls c = false) (hm : matchHere rs rest = some (m, caps)) :
    matchHere (ReItem.plus cls cap :: rs) (run ++ rest) =
      some (m + run.length, if cap then run :: caps else caps) := by
  obtain ⟨k, hk⟩ : ∃ k, run.length = k + 1 :=
    ⟨run.length - 1, by have := List.length_pos.mpr hne; omega⟩
  have hdrop : List.drop (k + 1) (run ++ rest) = rest := by
    rw [← hk]
    simp
  have htake : List.take (k + 1) (run ++ rest) = run := by
    rw [← hk]
    simp
  rw [matchHere, runLength_append cls run rest hall hrest, hk]
  simp only [tryLens, hdrop, htake, hm]

/-- A greedy `X?` in front of zero or one space. -/
theorem matchHere_opt_spc (rs : List ReItem) (b : Bool) (rest : Str) (m : Nat)
    (caps : List Str) (hrest : ∀ c ∈ rest.head?, reSpace c = false)
    (hm : matchHere rs rest = some (m, caps)) :
    matchHere (ReItem.opt reSpace :: rs) (spc b ++ rest) = some (m + (spc b).length, caps) := by
  cases b with
  | true =>
    have h32 : reSpace ' ' = true := by decide
    have hs : spc true ++ rest = ' ' :: rest := rfl
    rw [hs]
    simp only [spc, if_true, matchHere, h32, hm, List.length_singleton]
  | false =>
    simp only [spc, Bool.false_eq_true, if_false, List.nil_append, List.length_nil,
      Nat.add_zero]
    cases rest with
    | nil => simpa only [matchHere] using hm
    | cons x xs =>
      have hx : reSpace x = false := hrest x (by simp)
      simp only [matchHere, hx, Bool.false_eq_true, if_false, hm]

theorem matchHere_lit (c : Char) (rs : List ReItem) (rest : Str) (m : Nat) (caps : List Str)
    (hm : matchHere rs rest = some (m, caps)) :
    matchHere (ReItem.lit c :: rs) (c :: rest) = some (m + 1, caps) := by
  simp only [matchHere, if_true, hm]

theorem reTypeChar_not_reSpace {c : Char} (h : reTypeChar c = true) : reSpace c = false := by
  simp only [reTypeChar, reWord, Bool.or_eq_true, Bool.and_eq_true, decide_eq_true_eq] at h
  simp only [reSpace, Bool.or_eq_false_iff, decide_eq_false_iff_not]
  omega

theorem reWord_not_isSpace {c : Char} (h : reWord c = true) : isSpace c = false := by
  simp only [reWord, Bool.or_eq_true, Bool.and_eq_true, decide_eq_true_eq] at h
  simp only [isSpace, Bool.or_eq_false_iff, Bool.and_eq_false_imp, decide_eq_false_iff_not,
    decide_eq_true_eq]
  omega

theorem head_spc_append (b : Bool) (d : Char) (rest : Str) (P : Char → Prop)
    (hs : P ' ') (hd : P d) : ∀ c ∈ (spc b ++ d :: rest).head?, P c := by
  intro c hc
  cases b with
  | true =>
    simp only [spc, if_true, List.singleton_append, List.head?_cons, Option.mem_def,
      Option.some.injEq] at hc
    rw [← hc]
    exact hs
  | false =>
    simp only [spc, Bool.false_eq_true, if_false, List.nil_append, List.head?_cons,
      Option.mem_def, Option.some.injEq] at hc
    rw [← hc]
    exact hd

/-- The field pattern on any of the eight spellings of `n : t ;`: the groups capture
the name and the type. -/
theorem findField_fieldLineText (n t : Str) (b1 b2 b3 : Bool) (hn : n ≠ [])
    (hnw : ∀ c ∈ n, reWord c = true) (ht : t ≠ []) (htw : ∀ c ∈ t, reTypeChar c = true) :
    findField (fieldLineText n t b1 b2 b3) = (n, t, true) := by
  obtain ⟨c, t', rfl⟩ := List.exists_cons_of_ne_nil ht
  have h6 : matchHere [ReItem.lit ';'] [';'] = some (0 + 1, []) :=
    matchHere_lit ';' [] [] 0 [] rfl
  have h5 := matchHere_opt_spc [ReItem.lit ';'] b3 [';'] _ _
    (fun d hd => by
      simp only [List.head?_cons, Option.mem_def, Option.some.injEq] at hd
      rw [← hd]
      decide) h6
  have h4 := matchHere_plus reTypeChar true _ (c :: t') _ _ _ (by simp) htw
    (head_spc_append b3 ';' [] (fun d => reTypeChar d = false) (by decide) (by decide)) h5
  have h3 := matchHere_opt_spc _ b2 ((c :: t') ++ (spc b3 ++ [';'])) _ _
    (fun d hd => by
      simp only [List.cons_append, List.head?_cons, Option.mem_def, Option.some.injEq] at hd
      rw [← hd]
      exact reTypeChar_not_reSpace (htw c (List.mem_cons_self _ _))) h4
  have h2 := matchHere_lit ':' _ _ _ _ h3
  have h1 := matchHere_opt_spc _ b1 (':' :: (spc b2 ++ ((c :: t') ++ (spc b3 ++ [';'])))) _ _
    (fun d hd => by
      simp only [List.head?_cons, Option.mem_def, Option.some.injEq] at hd
      rw [← hd]
      decide) h2
  have h0 := matchHere_plus reWord true _ n _ _ _ hn hnw
    (head_spc_append b1 ':' _ (fun d => reWord d = false) (by decide) (by decide)) h1
  have hf := findStringSubmatch_of_matchHere h0
  unfold findField fieldLineText
  rw [show fieldRe = [ReItem.plus reWord true, ReItem.opt reSpace, ReItem.lit ':',
    ReItem.opt reSpace, ReItem.plus reTypeChar true, ReItem.opt reSpace, ReItem.lit ';']
    from rfl, hf]
  rfl

theorem fieldLineText_trim (n t : Str) (b1 b2 b3 : Bool) (hn : n ≠ [])
    (hnw : ∀ c ∈ n, reWord c = true) :
    trimSpace (fieldLineText n t b1 b2 b3) = fieldLineText n t b1 b2 b3 ∧
      "//".toList.isPrefixOf (fieldLineText n t b1 b2 b3) = false := by
  obtain ⟨c, n', rfl⟩ := List.exists_cons_of_ne_nil hn
  have hcw : reWord c = true := hnw c (List.mem_cons_self _ _)
  have hline : fieldLineText (c :: n') t b1 b2 b3 =
      c :: ((n' ++ (spc b1 ++ ':' :: (spc b2 ++ (t ++ spc b3)))) ++ [';']) := by
    simp [fieldLineText]
  rw [hline]
  refine ⟨trimSpace_eq_self _ _ _ (reWord_not_isSpace hcw) (by decide), ?_⟩
  have hne : ('/' == c) = false := by
    rw [beq_eq_false_iff_ne]
    intro h
    rw [← h] at hcw
    revert hcw
    decide
  show (('/' == c) && _) = false
  rw [hne]
  rfl

/-- The step a field line takes in any of its spellings, when a table is pending and
no earlier pattern matches the line. -/
theorem processLine_fieldLineText (st : ParseState) (n t : Str) (b1 b2 b3 : Bool) (p : Nat)
    (tbl : Table) (hn : n ≠ []) (hnw : ∀ c ∈ n, reWord c = true) (ht : t ≠ [])
    (htw : ∀ c ∈ t, reTypeChar c = true)
    (hp : st.pendingTable = some p) (hh : st.heap[p]? = some tbl)
    (hns : (findNameSpace (fieldLineText n t b1 b2 b3)).2 = false)
    (htb : (findTable (fieldLineText n t b1 b2 b3)).2 = false)
    (hrt : (findRootType (fieldLineText n t b1 b2 b3)).2 = false) :
    processLine st (fieldLineText n t b1 b2 b3) =
      some { st with heap := st.heap.set p { tbl with Fields := tbl.Fields ++ [⟨n, t⟩] } } := by
  obtain ⟨htrim, hcom⟩ := fieldLineText_trim n t b1 b2 b3 hn hnw
  have hfd := findField_fieldLineText n t b1 b2 b3 hn hnw ht htw
  apply processLine_field st ⟨n, t⟩ _ hp hh
  unfold fieldLineDef
  simp only [htrim, hcom, hns, htb, hrt, hfd, Bool.false_eq_true, if_false, if_true]

/-! ## The field rule keeps the rest of the state -/

theorem processLine_field_rule_frame (st st' : ParseState) (text : Str)
    (hc : "//".toList.isPrefixOf (trimSpace text) = false)
    (hns : (findNameSpace (trimSpace text)).2 = false)
    (htb : (findTable (trimSpace text)).2 = false)
    (hrt : (findRootType (trimSpace text)).2 = false)
    (h : processLine st text = some st') :
    st'.NameSpace = st.NameSpace ∧ st'.Package = st.Package ∧ st'.RootType = st.RootType ∧
      st'.Tables = st.Tables ∧ st'.pendingTable = st.pendingTable ∧
      st'.heap.length = st.heap.length := by
  unfold processLine at h
  rcases hns' : findNameSpace (trimSpace text) with ⟨ns, b⟩
  rcases htb' : findTable (trimSpace text) with ⟨tb, b'⟩
  rcases hrt' : findRootType (trimSpace text) with ⟨rt, b''⟩
  rcases hfd' : findField (trimSpace text) with ⟨fn, ft, b3⟩
  rw [hns'] at hns
  rw [htb'] at htb
  rw [hrt'] at hrt
  simp only at hns htb hrt
  subst hns
  subst htb
  subst hrt
  simp only [startsWith_eq, hc, hns', htb', hrt', hfd'] at h
  cases b3 with
  | false =>
    simp only [Option.some.injEq] at h
    subst h
    exact ⟨rfl, rfl, rfl, rfl, rfl, rfl⟩
  | true =>
    rcases hP : st.pendingTable with _ | p
    · simp only [hP, Option.some.injEq] at h
      subst h
      exact ⟨rfl, rfl, rfl, rfl, hP.symm ▸ rfl, rfl⟩
    · rcases hH : st.heap[p]? with _ | t
      · simp only [hP, hH] at h
        cases h
      · simp only [hP, hH, Option.some.injEq] at h
        subst h
        exact ⟨rfl, rfl, rfl, rfl, hP.symm ▸ rfl, by simp⟩

theorem tableLineName_of_match {text : Str}
    (hc : "//".toList.isPrefixOf (trimSpace text) = false)
    (hns : (findNameSpace (trimSpace text)).2 = false)
    (htb : (findTable (trimSpace text)).2 = true) :
    tableLineName text = some (findTable (trimSpace text)).1 := by
  unfold tableLineName
  simp only [hc, hns, htb, Bool.false_eq_true, if_false, if_true]

/-! ## The name of the output file -/

/-- Worker of `stringsReplaceAll`: `skip` characters of the occurrence just replaced
are still to be passed over. -/
def replaceGo (old new : Str) : Nat → Str → Str
  | _, [] => []
  | skip + 1, _ :: cs => replaceGo old new skip cs
  | 0, c :: cs =>
    if old.isPrefixOf (c :: cs) then new ++ replaceGo old new (old.length - 1) cs
    else c :: replaceGo old new 0 cs

/-- The function `strings.ReplaceAll` for a non-empty `old`: the occurrences of `old`
that do not overlap, from the left, are replaced by `new`. -/
def stringsReplaceAll (s old new : Str) : Str :=
  replaceGo old new 0 s

/-- The function `path.Base`: the last element of a path, trailing slashes removed;
`.` for the empty path and `/` for a path of slashes only. -/
def pathBase (path : Str) : Str :=
  if path = [] then ['.']
  else
    let last := ((path.reverse.dropWhile (fun c => c = '/')).takeWhile
      (fun c => !(c = '/'))).reverse
    if last = [] then ['/'] else last

/-- The elements joined by the separator. -/
def joinSep (sep : Char) : List Str → Str
  | [] => []
  | [s] => s
  | s :: s' :: rest => s ++ sep :: joinSep sep (s' :: rest)

/-- Worker of `pathClean` over the elements of a path: empty elements and `.` are
dropped, `..` removes the element before it, stays when there is none to remove in a
path that is not rooted, and is dropped at the root. `out` holds the elements kept so
far, the last one first. -/
def cleanGo (rooted : Bool) : List Str → List Str → List Str
  | out, [] => out.reverse
  | out, e :: es =>
    if e = [] ∨ e = ['.'] then cleanGo rooted out es
    else if e = ['.', '.'] then
      match out with
      | top :: out' =>
        if top = ['.', '.'] then cleanGo rooted (e :: out) es else cleanGo rooted out' es
      | [] => if rooted then cleanGo rooted [] es else cleanGo rooted [e] es
    else cleanGo rooted (e :: out) es

/-- The function `path.Clean`: the shortest path equivalent to `path`; `.` for the
empty result. -/
def pathClean (path : Str) : Str :=
  if path = [] then ['.']
  else
    let rooted : Bool := path.head? = some '/'
    let body := joinSep '/' (cleanGo rooted [] (stringsSplit path '/'))
    if rooted then '/' :: body
    else if body = [] then ['.'] else body

/-- The function `path.Join`: the elements joined by slashes, leading empty elements
left out, and the result cleaned; the empty string when all elements are empty. -/
def pathJoin (elem : List Str) : Str :=
  if (elem.map List.length).sum = 0 then []
  else
    pathClean (elem.foldl (fun buf e =>
      if buf ≠ [] ∨ e ≠ [] then
        (if buf ≠ [] then buf ++ '/' :: e else buf ++ e)
      else buf) [])

/-- The function `main` up to the call of `generateGoCode`: the state of `output` after
the scanning loop, with `OutputFile` set from the namespace (main.go, lines 68 to 131). -/
def mainParse (input outputF : Str) (lines : List Str) : Option ParseState :=
  let fName := pathBase input
  match scanLoop
      (initState input
        (pathJoin [outputF, stringsReplaceAll fName ".fbs".toList ".fb.go".toList]) fName)
      lines with
  | none => none
  | some st =>
    some { st with
      OutputFile :=
        pathJoin [outputF, st.NameSpace,
          stringsReplaceAll fName ".fbs".toList ".fb.go".toList] }

theorem stringsSplit_joinSep (sep : Char) (segs : List Str) (hne : segs ≠ [])
    (h : ∀ s ∈ segs, ∀ c ∈ s, c ≠ sep) : stringsSplit (joinSep sep segs) sep = segs := by
  unfold stringsSplit
  induction segs with
  | nil => exact absurd rfl hne
  | cons s rest ih =>
    cases rest with
    | nil =>
      have := splitGo_segment sep s [] [] (h s (List.mem_cons_self _ _))
      simp only [List.append_nil] at this
      simp only [joinSep, this, splitGo, List.reverse_reverse]
    | cons s' rest =>
      simp only [joinSep]
      rw [splitGo_segment sep s _ [] (h s (List.mem_cons_self _ _))]
      simp only [splitGo, if_true, List.append_nil, List.reverse_reverse]
      rw [ih (by simp) (fun t ht => h t (List.mem_cons_of_mem _ ht))]

theorem dotted_eq_joinSep (segs : List Str) : dotted segs = joinSep '.' segs := by
  induction segs with
  | nil => rfl
  | cons s rest ih =>
    cases rest with
    | nil => rfl
    | cons s' rest => simp only [dotted, joinSep, ih]

theorem joinSep_snoc (sep : Char) (comps : List Str) (x : Str) (hne : comps ≠ []) :
    joinSep sep (comps ++ [x]) = joinSep sep comps ++ sep :: x := by
  induction comps with
  | nil => exact absurd rfl hne
  | cons e rest ih =>
    cases rest with
    | nil => rfl
    | cons e' rest =>
      have := ih (by simp)
      simp only [List.cons_append, joinSep, List.append_assoc] at this ⊢
      exact congrArg (fun z => e ++ sep :: z) this

theorem joinSep_chars (sep : Char) (comps : List Str) (P : Char → Prop) (hs : P sep)
    (h : ∀ e ∈ comps, ∀ c ∈ e, P c) : ∀ c ∈ joinSep sep comps, P c := by
  induction comps with
  | nil =>
    intro c hc
    cases hc
  | cons e rest ih =>
    cases rest with
    | nil =>
      intro c hc
      exact h e (List.mem_cons_self _ _) c hc
    | cons e' rest =>
      intro c hc
      simp only [joinSep, List.mem_append, List.mem_cons] at hc
      rcases hc with hc | hc | hc
      · exact h e (List.mem_cons_self _ _) c hc
      · rw [hc]
        exact hs
      · exact ih (fun t ht => h t (List.mem_cons_of_mem _ ht)) c hc

/-- An element of a path that `path.Clean` keeps as it is: it starts with a word
character and holds no slash. -/
def goodElem (e : Str) : Prop :=
  (∃ c e', e = c :: e' ∧ reWord c = true) ∧ ∀ d ∈ e, d ≠ '/'

theorem goodElem_ne {e : Str} (h : goodElem e) :
    e ≠ [] ∧ e ≠ ['.'] ∧ e ≠ ['.', '.'] := by
  obtain ⟨⟨c, e', rfl, hc⟩, -⟩ := h
  have hd : c ≠ '.' := reWord_ne_dot hc
  refine ⟨by simp, ?_, ?_⟩
  · intro h
    simp only [List.cons.injEq] at h
    exact hd h.1
  · intro h
    simp only [List.cons.injEq] at h
    exact hd h.1

theorem cleanGo_good (out es : List Str) (h : ∀ e ∈ es, goodElem e) :
    cleanGo false out es = out.reverse ++ es := by
  induction es generalizing out with
  | nil => simp [cleanGo]
  | cons e es ih =>
    obtain ⟨h1, h2, h3⟩ := goodElem_ne (h e (List.mem_cons_self _ _))
    simp only [cleanGo, h1, h2, h3, or_self, if_false]
    rw [ih _ (fun t ht => h t (List.mem_cons_of_mem _ ht))]
    simp

theorem joinSep_head (sep : Char) (c : Char) (e' : Str) (rest : List Str) :
    ∃ tl, joinSep sep ((c :: e') :: rest) = c :: tl := by
  cases rest with
  | nil => exact ⟨e', rfl⟩
  | cons s' rest => exact ⟨e' ++ sep :: joinSep sep (s' :: rest), rfl⟩

theorem pathClean_good (comps : List Str) (hne : comps ≠ []) (h : ∀ e ∈ comps, goodElem e) :
    pathClean (joinSep '/' comps) = joinSep '/' comps := by
  obtain ⟨e, rest, rfl⟩ := List.exists_cons_of_ne_nil hne
  obtain ⟨⟨c, e', rfl, hc⟩, -⟩ := h e (List.mem_cons_self _ _)
  obtain ⟨tl, htl⟩ := joinSep_head '/' c e' rest
  have hsplit := stringsSplit_joinSep '/' ((c :: e') :: rest) hne (fun t ht => (h t ht).2)
  have hcs : c ≠ '/' := by
    intro hh
    rw [hh] at hc
    revert hc
    decide
  have hr : decide (List.head? (joinSep '/' ((c :: e') :: rest)) = some '/') = false := by
    rw [htl]
    simp [hcs]
  unfold pathClean
  rw [hsplit]
  simp only [hr]
  simp only [cleanGo_good [] _ h, List.reverse_nil, List.nil_append, htl]
  simp

theorem pathBase_self (s : Str) (hne : s ≠ []) (h : ∀ c ∈ s, c ≠ '/') : pathBase s = s := by
  have hd : s.reverse.dropWhile (fun c => decide (c = '/')) = s.reverse := by
    cases hr : s.reverse with
    | nil => rfl
    | cons x xs =>
      have hx : x ∈ s := by
        rw [← List.mem_reverse, hr]
        exact List.mem_cons_self _ _
      rw [List.dropWhile_cons_of_neg]
      simpa using h x hx
  have ht : s.reverse.takeWhile (fun c => !decide (c = '/')) = s.reverse := by
    rw [List.takeWhile_eq_self_iff]
    intro x hx
    simpa using h x (List.mem_reverse.mp hx)
  unfold pathBase
  simp only [hne, if_false, hd, ht, List.reverse_reverse]

theorem replaceGo_no_dot (base tail : Str) (new : Str) (h : ∀ c ∈ base, c ≠ '.') :
    replaceGo ".fbs".toList new 0 (base ++ tail) =
      base ++ replaceGo ".fbs".toList new 0 tail := by
  induction base with
  | nil => rfl
  | cons c cs ih =>
    have hc : c ≠ '.' := h c (List.mem_cons_self _ _)
    have hp : ".fbs".toList.isPrefixOf (c :: (cs ++ tail)) = false := by
      have hne : ('.' == c) = false := by
        rw [beq_eq_false_iff_ne]
        exact fun hh => hc hh.symm
      show (('.' == c) && _) = false
      rw [hne]
      rfl
    rw [List.cons_append]
    simp only [replaceGo, hp, Bool.false_eq_true, if_false]
    rw [ih (fun d hd => h d (List.mem_cons_of_mem _ hd))]
    rfl

theorem stringsReplaceAll_fbs (base : Str) (h : ∀ c ∈ base, c ≠ '.') :
    stringsReplaceAll (base ++ ".fbs".toList) ".fbs".toList ".fb.go".toList =
      base ++ ".fb.go".toList := by
  unfold stringsReplaceAll
  rw [replaceGo_no_dot base _ _ h]
  congr 1

theorem pathJoin_three (a b c : Str) (ha : a ≠ []) :
    pathJoin [a, b, c] = pathClean (a ++ '/' :: (b ++ '/' :: c)) := by
  have hl : 0 < a.length := List.length_pos.mpr ha
  unfold pathJoin
  have hsum : ¬ (List.map List.length [a, b, c]).sum = 0 := by
    simp only [List.map_cons, List.map_nil, List.sum_cons, List.sum_nil]
    omega
  rw [if_neg hsum]
  simp [ha]

theorem reWord_ne_slash {c : Char} (h : reWord c = true) : c ≠ '/' := by
  intro hc
  subst hc
  revert h
  decide

theorem goodElem_word (e : Str) (hne : e ≠ []) (hw : ∀ c ∈ e, reWord c = true) :
    goodElem e := by
  obtain ⟨c, e', rfl⟩ := List.exists_cons_of_ne_nil hne
  exact ⟨⟨c, e', rfl, hw c (List.mem_cons_self _ _)⟩, fun d hd => reWord_ne_slash (hw d hd)⟩

theorem goodElem_dotted (segs : List Str) (hne : segs ≠ [])
    (hid : ∀ s ∈ segs, s ≠ [] ∧ ∀ c ∈ s, reWord c = true) : goodElem (dotted segs) := by
  obtain ⟨s, rest, rfl⟩ := List.exists_cons_of_ne_nil hne
  obtain ⟨c, s', rfl⟩ := List.exists_cons_of_ne_nil (hid s (List.mem_cons_self _ _)).1
  obtain ⟨N, hN⟩ := dotted_head c s' rest
  have hcw : reWord c = true := (hid _ (List.mem_cons_self _ _)).2 c (List.mem_cons_self _ _)
  refine ⟨⟨c, N, hN, hcw⟩, ?_⟩
  intro d hd
  rcases dotted_chars _ (fun t ht => (hid t ht).2) d hd with hw | hdot
  · exact reWord_ne_slash hw
  · rw [hdot]
    decide

theorem goodElem_file (base : Str) (hne : base ≠ []) (hw : ∀ c ∈ base, reWord c = true) :
    goodElem (base ++ ".fb.go".toList) := by
  obtain ⟨c, b', rfl⟩ := List.exists_cons_of_ne_nil hne
  refine ⟨⟨c, b' ++ ".fb.go".toList, rfl, hw c (List.mem_cons_self _ _)⟩, ?_⟩
  intro d hd
  rcases List.mem_append.mp hd with hd | hd
  · exact reWord_ne_slash (hw d hd)
  · have hall : ∀ x ∈ ".fb.go".toList, x ≠ '/' := by decide
    exact hall d hd

/-- The values of `i` in the emitted loop `for i := n; i >= 0; i--`, where `n` stands for
`len(value.F)`: `n`, `n-1`, …, `0`. -/
def emittedLoopIndices : Nat → List Nat
  | 0 => [0]
  | n + 1 => (n + 1) :: emittedLoopIndices n

theorem emittedLoopIndices_length (n : Nat) : (emittedLoopIndices n).length = n + 1 := by
  induction n with
  | zero => rfl
  | succ n ih => simp only [emittedLoopIndices, List.length_cons, ih]

/-! ## What a match needs in the line -/

/-- Whether the text `pat` occurs in `s`. -/
def occursIn (pat : Str) : Str → Bool
  | [] => pat.isPrefixOf []
  | c :: cs => pat.isPrefixOf (c :: cs) || occursIn pat cs

theorem tryLens_some {rest : Str → Option (Nat × List Str)} {cap : Bool} {xs : Str} {k : Nat}
    {r : Nat × List Str} (h : tryLens rest cap xs k = some r) :
    ∃ j r', rest (xs.drop j) = some r' := by
  induction k with
  | zero => cases h
  | succ k ih =>
    simp only [tryLens] at h
    rcases hm : rest (xs.drop (k + 1)) with _ | r'
    · rw [hm] at h
      exact ih h
    · exact ⟨k + 1, r', hm⟩

/-- A match needs every literal character of the expression in the text. -/
theorem matchHere_lit_mem (re : List ReItem) : ∀ (xs : Str) (r : Nat × List Str),
    matchHere re xs = some r → ∀ c, ReItem.lit c ∈ re → c ∈ xs := by
  induction re with
  | nil =>
    intro xs r _ c hc
    cases hc
  | cons item rs ih =>
    intro xs r h c hc
    cases item with
    | lit c' =>
      cases xs with
      | nil =>
        simp only [matchHere] at h
        cases h
      | cons x xs' =>
        simp only [matchHere] at h
        split_ifs at h with hx
        rcases hm : matchHere rs xs' with _ | r'
        · rw [hm] at h
          cases h
        · rcases List.mem_cons.mp hc with hc | hc
          · cases hc
            rw [hx]
            exact List.mem_cons_self _ _
          · exact List.mem_cons_of_mem _ (ih xs' r' hm c hc)
    | plus cls cap =>
      simp only [matchHere] at h
      obtain ⟨j, r', hj⟩ := tryLens_some h
      rcases List.mem_cons.mp hc with hc | hc
      · cases hc
      · exact List.mem_of_mem_drop (ih _ r' hj c hc)
    | opt cls =>
      have hrs : ReItem.lit c ∈ rs := by
        rcases List.mem_cons.mp hc with hc | hc
        · cases hc
        · exact hc
      cases xs with
      | nil =>
        simp only [matchHere] at h
        exact ih _ r h c hrs
      | cons x xs' =>
        simp only [matchHere] at h
        split_ifs at h with hx
        · rcases hm : matchHere rs xs' with _ | r'
          · rw [hm] at h
            exact ih _ r h c hrs
          · exact List.mem_cons_of_mem _ (ih xs' r' hm c hrs)
        · exact ih _ r h c hrs

/-- A match of an expression that starts with literal text starts with that text. -/
theorem matchHere_lits_prefix (lits : Str) (rs : List ReItem) : ∀ (ys : Str)
    (r : Nat × List Str), matchHere (lits.map ReItem.lit ++ rs) ys = some r →
    lits.isPrefixOf ys = true := by
  induction lits with
  | nil =>
    intro ys r _
    cases ys <;> rfl
  | cons c cs ih =>
    intro ys r h
    rw [List.map_cons, List.cons_append] at h
    cases ys with
    | nil =>
      simp only [matchHere] at h
      cases h
    | cons y ys' =>
      simp only [matchHere] at h
      split_ifs at h with hy
      rcases hm : matchHere (cs.map ReItem.lit ++ rs) ys' with _ | r'
      · rw [hm] at h
        cases h
      · have := ih ys' r' hm
        simp only [List.isPrefixOf, hy, beq_self_eq_true, Bool.true_and, this]

theorem findStringSubmatch_lit_mem (re : List ReItem) (xs : Str) (c : Char)
    (hc : ReItem.lit c ∈ re) (hx : c ∉ xs) : findStringSubmatch re xs = [] := by
  induction xs with
  | nil =>
    simp only [findStringSubmatch]
    rcases hm : matchHere re [] with _ | r
    · rfl
    · exact absurd (matchHere_lit_mem re [] r hm c hc) hx
  | cons x xs ih =>
    simp only [findStringSubmatch]
    rcases hm : matchHere re (x :: xs) with _ | r
    · exact ih (fun h => hx (List.mem_cons_of_mem _ h))
    · exact absurd (matchHere_lit_mem re _ r hm c hc) hx

theorem findStringSubmatch_occurs (lits : Str) (rs : List ReItem) (xs : Str)
    (hx : occursIn lits xs = false) :
    findStringSubmatch (lits.map ReItem.lit ++ rs) xs = [] := by
  induction xs with
  | nil =>
    simp only [findStringSubmatch]
    rcases hm : matchHere (lits.map ReItem.lit ++ rs) [] with _ | r
    · rfl
    · have := matchHere_lits_prefix lits rs [] r hm
      simp only [occursIn] at hx
      rw [this] at hx
      cases hx
  | cons x xs ih =>
    simp only [occursIn, Bool.or_eq_false_iff] at hx
    simp only [findStringSubmatch]
    rcases hm : matchHere (lits.map ReItem.lit ++ rs) (x :: xs) with _ | r
    · exact ih hx.2
    · have := matchHere_lits_prefix lits rs _ r hm
      rw [this] at hx
      cases hx.1

theorem findNameSpace_no_semicolon (xs : Str) (h : ';' ∉ xs) : findNameSpace xs = ([], false) := by
  unfold findNameSpace
  rw [findStringSubmatch_lit_mem nameSpaceRe xs ';' (by simp [nameSpaceRe]) h]

theorem findTable_no_brace (xs : Str) (h : '{' ∉ xs) : findTable xs = ([], false) := by
  unfold findTable
  rw [findStringSubmatch_lit_mem tableRe xs '{' (by simp [tableRe]) h]

theorem findNameSpace_no_keyword (xs : Str) (h : occursIn "namespace".toList xs = false) :
    findNameSpace xs = ([], false) := by
  unfold findNameSpace
  rw [show nameSpaceRe = "namespace".toList.map ReItem.lit ++
    [ReItem.plus reSpace false, ReItem.plus reAny true, ReItem.lit ';'] from rfl,
    findStringSubmatch_occurs _ _ xs h]

theorem findRootType_no_keyword (xs : Str) (h : occursIn "root_type".toList xs = false) :
    findRootType xs = ([], false) := by
  unfold findRootType
  rw [show rootTypeRe = "root_type".toList.map ReItem.lit ++
    [ReItem.plus reSpace false, ReItem.plus reWord true, ReItem.lit ';'] from rfl,
    findStringSubmatch_occurs _ _ xs h]

/-! ## Table lines and field lines as they are written -/

/-- The spelling of a table line: `table`, a space, the name, an optional space and the
opening brace. -/
def tableLineText (T : Str) (b : Bool) : Str :=
  "table ".toList ++ (T ++ (spc b ++ ['{']))

/-- The lines of a table declaration: the table line, one line per field, indented by
`ind` spaces, and the closing brace. -/
def renderTable (ind : Nat) (bt b1 b2 b3 : Bool) (T : Table) : List Str :=
  tableLineText T.Name bt ::
    (T.Fields.map (fun f => List.replicate ind ' ' ++ fieldLineText f.Name f.Typ b1 b2 b3)
      ++ ["\x7d".toList])

/-- The lines of a schema: the declarations of its tables, in order. -/
def renderSchema (ind : Nat) (bt b1 b2 b3 : Bool) (decls : List Table) : List Str :=
  (decls.map (renderTable ind bt b1 b2 b3)).flatten

theorem reWord_ne_semicolon {c : Char} (h : reWord c = true) : c ≠ ';' := by
  intro hc
  subst hc
  revert h
  decide

theorem mem_spc {b : Bool} {c : Char} (h : c ∈ spc b) : c = ' ' := by
  cases b with
  | true => simpa [spc] using h
  | false => simp [spc] at h

/-- The table pattern on `table T {`: the group captures the name. -/
theorem findTable_tableLineText (T : Str) (b : Bool) (hT : T ≠ [])
    (hw : ∀ c ∈ T, reWord c = true) : findTable (tableLineText T b) = (T, true) := by
  obtain ⟨c, T', rfl⟩ := List.exists_cons_of_ne_nil hT
  have h3 : matchHere [ReItem.lit '{'] ['{'] = some (0 + 1, []) :=
    matchHere_lit '{' [] [] 0 [] rfl
  have h2 := matchHere_opt_spc [ReItem.lit '{'] b ['{'] _ _
    (fun d hd => by
      simp only [List.head?_cons, Option.mem_def, Option.some.injEq] at hd
      rw [← hd]
      decide) h3
  have h1 := matchHere_plus reWord true _ (c :: T') _ _ _ (by simp) hw
    (head_spc_append b '{' [] (fun d => reWord d = false) (by decide) (by decide)) h2
  have h0 := matchHere_plus reSpace false _ [' '] ((c :: T') ++ (spc b ++ ['{'])) _ _
    (by simp) (fun d hd => by
      rw [List.mem_singleton.mp hd]
      decide)
    (fun d hd => by
      simp only [List.cons_append, List.head?_cons, Option.mem_def, Option.some.injEq] at hd
      rw [← hd]
      exact reWord_not_reSpace (hw c (List.mem_cons_self _ _))) h1
  have hm := matchHere_lits "table".toList
    [ReItem.plus reSpace false, ReItem.plus reWord true, ReItem.opt reSpace, ReItem.lit '{']
    ([' '] ++ ((c :: T') ++ (spc b ++ ['{'])))
  rw [h0, Option.map_some'] at hm
  have hline : tableLineText (c :: T') b =
      "table".toList ++ ([' '] ++ ((c :: T') ++ (spc b ++ ['{']))) := by
    simp [tableLineText]
  unfold findTable
  rw [hline, show tableRe = "table".toList.map ReItem.lit ++
    [ReItem.plus reSpace false, ReItem.plus reWord true, ReItem.opt reSpace, ReItem.lit '{']
    from rfl, findStringSubmatch_of_matchHere hm]
  rfl

/-- A line `table T {` is handled as a table line with the name `T`. -/
theorem tableLineName_tableLineText (T : Str) (b : Bool) (hT : T ≠ [])
    (hw : ∀ c ∈ T, reWord c = true) : tableLineName (tableLineText T b) = some T := by
  have hline : tableLineText T b = 't' :: (("able ".toList ++ (T ++ spc b)) ++ ['{']) := by
    simp [tableLineText]
  have htrim : trimSpace (tableLineText T b) = tableLineText T b := by
    rw [hline]
    exact trimSpace_eq_self _ _ _ (by decide) (by decide)
  have hcom : "//".toList.isPrefixOf (tableLineText T b) = false := by
    rw [hline]
    rfl
  have hns : findNameSpace (tableLineText T b) = ([], false) := by
    apply findNameSpace_no_semicolon
    intro hmem
    simp only [tableLineText, List.mem_append, List.mem_singleton] at hmem
    rcases hmem with hmem | hmem | hmem | hmem
    · revert hmem
      decide
    · exact reWord_ne_semicolon (hw _ hmem) rfl
    · have := mem_spc hmem
      revert this
      decide
    · revert hmem
      decide
  unfold tableLineName
  simp only [htrim, hcom, hns, findTable_tableLineText T b hT hw, Bool.false_eq_true,
    if_false, if_true]

theorem trimSpace_indent (k : Nat) (s : Str) :
    trimSpace (List.replicate k ' ' ++ s) = trimSpace s := by
  have hd : (List.replicate k ' ' ++ s).dropWhile isSpace = s.dropWhile isSpace := by
    induction k with
    | zero => rfl
    | succ k ih =>
      rw [List.replicate_succ, List.cons_append, List.dropWhile_cons_of_pos (by decide), ih]
  unfold trimSpace
  rw [hd]

theorem reTypeChar_ne_brace {c : Char} (h : reTypeChar c = true) : c ≠ '{' := by
  intro hc
  subst hc
  revert h
  decide

theorem reWord_reTypeChar {c : Char} (h : reWord c = true) : reTypeChar c = true := by
  simp only [reTypeChar, h, Bool.or_true]

theorem fieldLineText_no_brace (n t : Str) (b1 b2 b3 : Bool)
    (hnw : ∀ c ∈ n, reWord c = true) (htw : ∀ c ∈ t, reTypeChar c = true) :
    '{' ∉ fieldLineText n t b1 b2 b3 := by
  intro hmem
  simp only [fieldLineText, List.mem_append, List.mem_cons, List.mem_singleton,
    List.not_mem_nil, or_false] at hmem
  rcases hmem with hmem | hmem | hmem | hmem | hmem | hmem | hmem
  · exact reTypeChar_ne_brace (reWord_reTypeChar (hnw _ hmem)) rfl
  · have := mem_spc hmem
    revert this
    decide
  · revert hmem
    decide
  · have := mem_spc hmem
    revert this
    decide
  · exact reTypeChar_ne_brace (htw _ hmem) rfl
  · have := mem_spc hmem
    revert this
    decide
  · revert hmem
    decide

/-- An indented field line is not a table line, and it is handled as a field line for
its name and type when the words `namespace` and `root_type` do not occur in it. -/
theorem fieldLine_kinds (ind : Nat) (n t : Str) (b1 b2 b3 : Bool) (hn : n ≠ [])
    (hnw : ∀ c ∈ n, reWord c = true) (ht : t ≠ []) (htw : ∀ c ∈ t, reTypeChar c = true)
    (hns : occursIn "namespace".toList (fieldLineText n t b1 b2 b3) = false)
    (hrt : occursIn "root_type".toList (fieldLineText n t b1 b2 b3) = false) :
    tableLineName (List.replicate ind ' ' ++ fieldLineText n t b1 b2 b3) = none ∧
      fieldLineDef (List.replicate ind ' ' ++ fieldLineText n t b1 b2 b3) = some ⟨n, t⟩ := by
  obtain ⟨htrim, hcom⟩ := fieldLineText_trim n t b1 b2 b3 hn hnw
  have htrim' : trimSpace (List.replicate ind ' ' ++ fieldLineText n t b1 b2 b3) =
      fieldLineText n t b1 b2 b3 := by
    rw [trimSpace_indent, htrim]
  have htb := findTable_no_brace _ (fieldLineText_no_brace n t b1 b2 b3 hnw htw)
  have hfd := findField_fieldLineText n t b1 b2 b3 hn hnw ht htw
  constructor
  · unfold tableLineName
    simp only [htrim', hcom, htb, findNameSpace_no_keyword _ hns, Bool.false_eq_true,
      if_false]
  · unfold fieldLineDef
    simp only [htrim', hcom, htb, findNameSpace_no_keyword _ hns,
      findRootType_no_keyword _ hrt, hfd, Bool.false_eq_true, if_false, if_true]

theorem specFieldsOf_no_table (a : List Str) (h : ∀ l ∈ a, tableLineName l = none) :
    specFieldsOf a = a.filterMap fieldLineDef := by
  unfold specFieldsOf
  congr 1
  rw [List.takeWhile_eq_self_iff]
  intro l hl
  simp [h l hl]

theorem specFieldsOf_block (mid R : List Str) (h : ∀ l ∈ mid, tableLineName l = none)
    (hR : R = [] ∨ ∃ l rest name, R = l :: rest ∧ tableLineName l = some name) :
    specFieldsOf (mid ++ R) = mid.filterMap fieldLineDef := by
  rcases hR with hR | ⟨l, rest, name, hR, hl⟩
  · rw [hR, List.append_nil]
    exact specFieldsOf_no_table mid h
  · rw [hR, specFieldsOf_append_table mid rest l hl]
    exact specFieldsOf_no_table mid h

/-- A table declaration the rendering spells as the claims read it: the name is a
non-empty word; every field has a non-empty word as name and a non-empty token of word
and bracket characters as type, and the words `namespace` and `root_type` do not occur
in its line. -/
def declOk (b1 b2 b3 : Bool) (T : Table) : Prop :=
  (T.Name ≠ [] ∧ ∀ c ∈ T.Name, reWord c = true) ∧
    ∀ f ∈ T.Fields, f.Name ≠ [] ∧ (∀ c ∈ f.Name, reWord c = true) ∧ f.Typ ≠ [] ∧
      (∀ c ∈ f.Typ, reTypeChar c = true) ∧
      occursIn "namespace".toList (fieldLineText f.Name f.Typ b1 b2 b3) = false ∧
      occursIn "root_type".toList (fieldLineText f.Name f.Typ b1 b2 b3) = false

theorem filterMap_map_some {α β : Type} (g : α → β) (h : β → Option α) (fs : List α)
    (hg : ∀ f ∈ fs, h (g f) = some f) : (fs.map g).filterMap h = fs := by
  induction fs with
  | nil => rfl
  | cons f fs ih =>
    rw [List.map_cons, List.filterMap_cons, hg f (List.mem_cons_self _ _)]
    simp only
    rw [ih (fun x hx => hg x (List.mem_cons_of_mem _ hx))]

theorem renderSchema_head (ind : Nat) (bt b1 b2 b3 : Bool) (decls : List Table)
    (h : ∀ T ∈ decls, declOk b1 b2 b3 T) :
    renderSchema ind bt b1 b2 b3 decls = [] ∨
      ∃ l rest name, renderSchema ind bt b1 b2 b3 decls = l :: rest ∧
        tableLineName l = some name := by
  cases decls with
  | nil => exact Or.inl rfl
  | cons T rest =>
    right
    have hT := (h T (List.mem_cons_self _ _)).1
    exact ⟨tableLineText T.Name bt, _, T.Name, rfl,
      tableLineName_tableLineText T.Name bt hT.1 hT.2⟩

/-- The tables the claims describe for the lines of a rendered schema are the declared
tables, those named `Pagination` left out. -/
theorem specTables_render (ind : Nat) (bt b1 b2 b3 : Bool) (decls : List Table)
    (h : ∀ T ∈ decls, declOk b1 b2 b3 T) :
    specTables (renderSchema ind bt b1 b2 b3 decls) =
      decls.filter (fun T => decide (T.Name ≠ "Pagination".toList)) := by
  induction decls with
  | nil => rfl
  | cons T rest ih =>
    have hT := h T (List.mem_cons_self _ _)
    have hrest : ∀ T' ∈ rest, declOk b1 b2 b3 T' := fun T' hT' =>
      h T' (List.mem_cons_of_mem _ hT')
    have hTL := tableLineName_tableLineText T.Name bt hT.1.1 hT.1.2
    have hmid : ∀ l ∈ T.Fields.map (fun f =>
        List.replicate ind ' ' ++ fieldLineText f.Name f.Typ b1 b2 b3) ++ ["\x7d".toList],
        tableLineName l = none := by
      intro l hl
      rcases List.mem_append.mp hl with hl | hl
      · obtain ⟨f, hf, rfl⟩ := List.mem_map.mp hl
        obtain ⟨h1, h2, h3, h4, h5, h6⟩ := hT.2 f hf
        exact (fieldLine_kinds ind f.Name f.Typ b1 b2 b3 h1 h2 h3 h4 h5 h6).1
      · rw [List.mem_singleton.mp hl]
        decide
    have hfm : (T.Fields.map (fun f =>
        List.replicate ind ' ' ++ fieldLineText f.Name f.Typ b1 b2 b3)
        ++ ["\x7d".toList]).filterMap fieldLineDef = T.Fields := by
      rw [List.filterMap_append, filterMap_map_some]
      · have hc : fieldLineDef "\x7d".toList = none := by decide
        simp only [List.filterMap_cons, hc, List.filterMap_nil, List.append_nil]
      · intro f hf
        obtain ⟨h1, h2, h3, h4, h5, h6⟩ := hT.2 f hf
        exact (fieldLine_kinds ind f.Name f.Typ b1 b2 b3 h1 h2 h3 h4 h5 h6).2
    have hsplit : renderSchema ind bt b1 b2 b3 (T :: rest) =
        tableLineText T.Name bt :: ((T.Fields.map (fun f =>
          List.replicate ind ' ' ++ fieldLineText f.Name f.Typ b1 b2 b3)
          ++ ["\x7d".toList]) ++ renderSchema ind bt b1 b2 b3 rest) := by
      simp only [renderSchema, renderTable, List.map_cons, List.flatten_cons,
        List.cons_append, List.append_assoc]
    rw [hsplit]
    simp only [specTables, hTL]
    rw [specTables_skip _ _ hmid, ih hrest,
      specFieldsOf_block _ _ hmid (renderSchema_head ind bt b1 b2 b3 rest hrest), hfm]
    by_cases hn : T.Name = "Pagination".toList
    · simp only [hn, if_true, List.filter_cons, ne_eq, not_true_eq_false, decide_False,
        Bool.false_eq_true, if_false]
    · simp only [hn, if_false, List.filter_cons, ne_eq, not_false_eq_true, decide_True,
        if_true]

/-! ## The output path in general -/

/-- An element `path.Clean` keeps as it is: not empty, not `.`, not `..`, no slash. -/
def plainElem (e : Str) : Prop :=
  e ≠ [] ∧ e ≠ ['.'] ∧ e ≠ ['.', '.'] ∧ ∀ d ∈ e, d ≠ '/'

/-- The start of a clean path: a slash for a rooted path, nothing otherwise. -/
def rootText (rooted : Bool) : Str :=
  if rooted then ['/'] else []

theorem plainElem_of_goodElem {e : Str} (h : goodElem e) : plainElem e := by
  obtain ⟨h1, h2, h3⟩ := goodElem_ne h
  exact ⟨h1, h2, h3, h.2⟩

theorem cleanGo_plain (rooted : Bool) (out es : List Str) (h : ∀ e ∈ es, plainElem e) :
    cleanGo rooted out es = out.reverse ++ es := by
  induction es generalizing out with
  | nil => simp [cleanGo]
  | cons e es ih =>
    obtain ⟨h1, h2, h3, -⟩ := h e (List.mem_cons_self _ _)
    simp only [cleanGo, h1, h2, h3, or_self, if_false]
    rw [ih _ (fun t ht => h t (List.mem_cons_of_mem _ ht))]
    simp

theorem pathClean_plain (rooted : Bool) (comps : List Str) (hne : comps ≠ [])
    (h : ∀ e ∈ comps, plainElem e) :
    pathClean (rootText rooted ++ joinSep '/' comps) = rootText rooted ++ joinSep '/' comps := by
  obtain ⟨e, rest, rfl⟩ := List.exists_cons_of_ne_nil hne
  obtain ⟨he, -, -, hes⟩ := h e (List.mem_cons_self _ _)
  obtain ⟨c, e', rfl⟩ := List.exists_cons_of_ne_nil he
  obtain ⟨tl, htl⟩ := joinSep_head '/' c e' rest
  have hsplit := stringsSplit_joinSep '/' ((c :: e') :: rest) hne (fun t ht => (h t ht).2.2.2)
  have hcs : c ≠ '/' := hes c (List.mem_cons_self _ _)
  cases rooted with
  | false =>
    have hr : decide (List.head? (joinSep '/' ((c :: e') :: rest)) = some '/') = false := by
      rw [htl]
      simp [hcs]
    simp only [rootText, Bool.false_eq_true, if_false, List.nil_append]
    unfold pathClean
    rw [hsplit]
    simp only [hr]
    simp only [cleanGo_plain false [] _ h, List.reverse_nil, List.nil_append, htl]
    simp
  | true =>
    have hsplit' : stringsSplit ('/' :: joinSep '/' ((c :: e') :: rest)) '/' =
        [] :: ((c :: e') :: rest) := by
      unfold stringsSplit at hsplit ⊢
      simp only [splitGo, if_true, List.reverse_nil, hsplit]
    simp only [rootText, if_true, List.singleton_append]
    unfold pathClean
    rw [hsplit']
    have hclean : cleanGo true [] ([] :: ((c :: e') :: rest)) = (c :: e') :: rest :=
      (show cleanGo true [] ([] :: ((c :: e') :: rest)) =
        cleanGo true [] ((c :: e') :: rest) from rfl).trans (cleanGo_plain true [] _ h)
    simp [hclean]

theorem takeWhile_append_stop {α : Type} (p : α → Bool) (a b : List α)
    (ha : ∀ x ∈ a, p x = true) (hb : ∀ x ∈ b.head?, p x = false) :
    (a ++ b).takeWhile p = a := by
  induction a with
  | nil =>
    cases b with
    | nil => rfl
    | cons x xs =>
      have hx : p x = false := hb x (by simp)
      simp [List.takeWhile_cons, hx]
  | cons x xs ih =>
    rw [List.cons_append, List.takeWhile_cons, ha x (List.mem_cons_self _ _)]
    simp only [if_true]
    rw [ih (fun y hy => ha y (List.mem_cons_of_mem _ hy))]

/-- The base name of a path that ends in a name without slashes after a directory part
that is empty or ends in a slash. -/
theorem pathBase_dir (dir name : Str) (hdir : dir = [] ∨ ∃ d, dir = d ++ ['/'])
    (hne : name ≠ []) (h : ∀ c ∈ name, c ≠ '/') : pathBase (dir ++ name) = name := by
  have hrev : (dir ++ name).reverse = name.reverse ++ dir.reverse := List.reverse_append _ _
  have hd : (name.reverse ++ dir.reverse).dropWhile (fun c => decide (c = '/')) =
      name.reverse ++ dir.reverse := by
    cases hr : name.reverse with
    | nil =>
      exact absurd (List.reverse_eq_nil_iff.mp hr) hne
    | cons x xs =>
      have hx : x ∈ name := by
        rw [← List.mem_reverse, hr]
        exact List.mem_cons_self _ _
      rw [List.cons_append, List.dropWhile_cons_of_neg]
      simpa using h x hx
  have ht : (name.reverse ++ dir.reverse).takeWhile (fun c => !decide (c = '/')) =
      name.reverse := by
    apply takeWhile_append_stop
    · intro x hx
      simpa using h x (List.mem_reverse.mp hx)
    · intro x hx
      rcases hdir with hdir | ⟨d, hdir⟩
      · rw [hdir] at hx
        simp at hx
      · rw [hdir] at hx
        simp only [List.reverse_append, List.reverse_cons, List.reverse_nil, List.nil_append,
          List.singleton_append, List.head?_cons, Option.mem_def, Option.some.injEq] at hx
        rw [← hx]
        rfl
  have hne' : dir ++ name ≠ [] := fun hh => hne (List.append_eq_nil.mp hh).2
  unfold pathBase
  simp only [hne', if_false, hrev, hd, ht, List.reverse_reverse, hne]

theorem isPrefixOf_fbs_append (c : Char) (cs : Str)
    (h : ".fbs".toList.isPrefixOf (c :: cs) = false) :
    ".fbs".toList.isPrefixOf (c :: cs ++ ".fbs".toList) = false := by
  have hlit : ".fbs".toList = ['.', 'f', 'b', 's'] := rfl
  rw [hlit] at h ⊢
  rcases cs with _ | ⟨x, _ | ⟨y, _ | ⟨z, rest⟩⟩⟩
  · simp [List.isPrefixOf]
  · simp [List.isPrefixOf]
  · simp [List.isPrefixOf]
  · simpa [List.isPrefixOf] using h

theorem replaceGo_fbs (base : Str) (h : occursIn ".fbs".toList base = false) :
    replaceGo ".fbs".toList ".fb.go".toList 0 (base ++ ".fbs".toList) =
      base ++ ".fb.go".toList := by
  induction base with
  | nil => decide
  | cons c cs ih =>
    simp only [occursIn, Bool.or_eq_false_iff] at h
    have hp := isPrefixOf_fbs_append c cs h.1
    rw [List.cons_append] at hp ⊢
    simp only [replaceGo, hp, Bool.false_eq_true, if_false]
    rw [ih h.2]
    rfl

theorem scanLoop_append (a b : List Str) : ∀ st : ParseState,
    scanLoop st (a ++ b) = (scanLoop st a).bind (fun s => scanLoop s b) := by
  induction a with
  | nil =>
    intro st
    rfl
  | cons l a ih =>
    intro st
    rw [List.cons_append]
    simp only [scanLoop]
    rcases processLine st l with _ | st1
    · rfl
    · exact ih st1

/-- A line in which the word `namespace` does not occur keeps `NameSpace`. -/
theorem processLine_keeps_nameSpace (st st' : ParseState) (text : Str)
    (hk : occursIn "namespace".toList (trimSpace text) = false)
    (h : processLine st text = some st') : st'.NameSpace = st.NameSpace := by
  have hns := findNameSpace_no_keyword _ hk
  have hns2 : (findNameSpace (trimSpace text)).2 = false := by rw [hns]
  rcases hc : "//".toList.isPrefixOf (trimSpace text) with _ | _
  · rcases htb : (findTable (trimSpace text)).2 with _ | _
    · rcases hrt : (findRootType (trimSpace text)).2 with _ | _
      · exact (processLine_field_rule_frame st st' text hc hns2 htb hrt h).1
      · have h1 : processLine st text =
            some { st with RootType := (findRootType (trimSpace text)).1 } :=
          processLine_rootType hc hns2 htb (by rw [← hrt])
        rw [h1, Option.some.injEq] at h
        rw [← h]
    · have hT := tableLineName_of_match hc hns2 htb
      by_cases hn : (findTable (trimSpace text)).1 = "Pagination".toList
      · rw [hn] at hT
        rw [processLine_pagination st hT, Option.some.injEq] at h
        rw [← h]
      · rw [processLine_table st _ hT hn, Option.some.injEq] at h
        rw [← h]
  · rw [processLine_comment hc, Option.some.injEq] at h
    rw [← h]

theorem scanLoop_keeps_nameSpace (ls : List Str)
    (hk : ∀ l ∈ ls, occursIn "namespace".toList (trimSpace l) = false) :
    ∀ st st', scanLoop st ls = some st' → st'.NameSpace = st.NameSpace := by
  induction ls with
  | nil =>
    intro st st' h
    simp only [scanLoop, Option.some.injEq] at h
    rw [h]
  | cons l ls ih =>
    intro st st' h
    simp only [scanLoop] at h
    rcases h1 : processLine st l with _ | st1
    · rw [h1] at h
      cases h
    · rw [h1] at h
      rw [ih (fun x hx => hk x (List.mem_cons_of_mem _ hx)) st1 st' h,
        processLine_keeps_nameSpace st st1 l (hk l (List.mem_cons_self _ _)) h1]

theorem plainElem_file (base : Str) (h : ∀ c ∈ base, c ≠ '/') :
    plainElem (base ++ ".fb.go".toList) := by
  have hlen : (base ++ ".fb.go".toList).length = base.length + 6 := by
    rw [List.length_append]
    rfl
  refine ⟨?_, ?_, ?_, ?_⟩
  · intro hh
    rw [hh] at hlen
    simp at hlen
  · intro hh
    rw [hh] at hlen
    simp at hlen
  · intro hh
    rw [hh] at hlen
    simp at hlen
  · intro d hd
    rcases List.mem_append.mp hd with hd | hd
    · exact h d hd
    · have hall : ∀ x ∈ ".fb.go".toList, x ≠ '/' := by decide
      exact hall d hd

/-- The function `main` up to the call of `generateGoCode`, on an input whose last line
for a namespace declares a dotted identifier: the loop returns, `NameSpace` is the
identifier and `OutputFile` is the cleaned join of the output root, the namespace as a
single element and the renamed base name of the input path. -/
theorem mainParse_namespace_path (O dir base : Str) (segs : List Str) (pre post : List Str)
    (hO : O ≠ []) (hdir : dir = [] ∨ ∃ d, dir = d ++ ['/']) (hbs : ∀ c ∈ base, c ≠ '/')
    (hbf : occursIn ".fbs".toList base = false) (hseg : segs ≠ [])
    (hsegw : ∀ s ∈ segs, s ≠ [] ∧ ∀ c ∈ s, reWord c = true)
    (hpost : ∀ l ∈ post, occursIn "namespace".toList (trimSpace l) = false) :
    ∃ st, mainParse (dir ++ (base ++ ".fbs".toList)) O
        (pre ++ ("namespace ".toList ++ dotted segs ++ ";".toList) :: post) = some st ∧
      st.NameSpace = dotted segs ∧
      st.OutputFile =
        pathClean (O ++ '/' :: (dotted segs ++ '/' :: (base ++ ".fb.go".toList))) := by
  have hbase : pathBase (dir ++ (base ++ ".fbs".toList)) = base ++ ".fbs".toList := by
    apply pathBase_dir _ _ hdir
    · intro hh
      have := congrArg List.length hh
      simp at this
    · intro c hc
      rcases List.mem_append.mp hc with hc | hc
      · exact hbs c hc
      · have hall : ∀ x ∈ ".fbs".toList, x ≠ '/' := by decide
        exact hall c hc
  have hrep : stringsReplaceAll (base ++ ".fbs".toList) ".fbs".toList ".fb.go".toList =
      base ++ ".fb.go".toList := replaceGo_fbs base hbf
  obtain ⟨st0, hs, -⟩ := scanLoop_isSome (dir ++ (base ++ ".fbs".toList))
    (pathJoin [O, base ++ ".fb.go".toList]) (base ++ ".fbs".toList)
    (pre ++ ("namespace ".toList ++ dotted segs ++ ";".toList) :: post)
  have hN : st0.NameSpace = dotted segs := by
    have hs' := hs
    rw [scanLoop_append] at hs'
    rcases h1 : scanLoop (initState (dir ++ (base ++ ".fbs".toList))
        (pathJoin [O, base ++ ".fb.go".toList]) (base ++ ".fbs".toList)) pre with _ | s1
    · rw [h1] at hs'
      cases hs'
    · rw [h1] at hs'
      simp only [Option.bind, scanLoop, processLine_dotted s1 segs hseg hsegw] at hs'
      rw [scanLoop_keeps_nameSpace post hpost _ _ hs']
  refine ⟨{ st0 with OutputFile := pathJoin [O, st0.NameSpace, base ++ ".fb.go".toList] },
    ?_, hN, ?_⟩
  · unfold mainParse
    rw [hbase]
    simp only [hrep, hs]
  · show pathJoin [O, st0.NameSpace, base ++ ".fb.go".toList] = _
    rw [hN, pathJoin_three _ _ _ hO]

theorem plain_path_text (rooted : Bool) (comps segs : List Str) (base : Str)
    (hO : comps ≠ []) (hOp : ∀ e ∈ comps, plainElem e) (hseg : segs ≠ [])
    (hsegw : ∀ s ∈ segs, s ≠ [] ∧ ∀ c ∈ s, reWord c = true) (hbs : ∀ c ∈ base, c ≠ '/') :
    pathClean ((rootText rooted ++ joinSep '/' comps) ++
        '/' :: (dotted segs ++ '/' :: (base ++ ".fb.go".toList))) =
      (rootText rooted ++ joinSep '/' comps) ++
        '/' :: (dotted segs ++ '/' :: (base ++ ".fb.go".toList)) := by
  have hjoin : (rootText rooted ++ joinSep '/' comps) ++
      '/' :: (dotted segs ++ '/' :: (base ++ ".fb.go".toList)) =
      rootText rooted ++
        joinSep '/' ((comps ++ [dotted segs]) ++ [base ++ ".fb.go".toList]) := by
    rw [joinSep_snoc _ _ _ (by simp), joinSep_snoc _ _ _ hO]
    simp only [List.append_assoc, List.cons_append]
  have hplain : ∀ e ∈ (comps ++ [dotted segs]) ++ [base ++ ".fb.go".toList],
      plainElem e := by
    intro e he
    simp only [List.mem_append, List.mem_singleton] at he
    rcases he with (he | he) | he
    · exact hOp e he
    · rw [he]
      exact plainElem_of_goodElem (goodElem_dotted segs hseg hsegw)
    · rw [he]
      exact plainElem_file base hbs
  rw [hjoin]
  exact pathClean_plain rooted _ (by simp) hplain

end FlatGen

/-! ## The claims -/

open FlatGen

/-- C1: for every sequence of input lines the parser returns a model whose `Tables`
are, in order, the tables of the lines handled as table lines whose captured name is
not `Pagination`, each with the fields of the lines handled as field lines between
its line and the next line handled as a table line; the table names are the captured
names other than `Pagination`, in the order of the lines. The lines are those one
writes: for every non-empty word `T` the table pattern captures `T` from `table T {`
and the line is handled as a table line; every spelling of `n : t ;` in which the
words `namespace` and `root_type` do not occur is handled, indented or not, as the
field line of (`n`, `t`); and parsing the lines of any schema of such declarations
gives back the declared tables with their fields, in the order of declaration, the
tables named `Pagination` left out. -/
theorem parse_tables_in_declaration_order (i o n : Str) :
    (∀ lines, ∃ m, parseLines i o n lines = some m ∧ m.Tables = specTables lines ∧
      m.Tables.map (fun t => t.Name) =
        (lines.filterMap tableLineName).filter
          (fun nm => decide (nm ≠ "Pagination".toList))) ∧
    (∀ (T : Str) (b : Bool), T ≠ [] → (∀ c ∈ T, reWord c = true) →
      findTable (tableLineText T b) = (T, true) ∧
        tableLineName (tableLineText T b) = some T) ∧
    (∀ (ind : Nat) (f t : Str) (b1 b2 b3 : Bool), f ≠ [] → (∀ c ∈ f, reWord c = true) →
      t ≠ [] → (∀ c ∈ t, reTypeChar c = true) →
      occursIn "namespace".toList (fieldLineText f t b1 b2 b3) = false →
      occursIn "root_type".toList (fieldLineText f t b1 b2 b3) = false →
      findField (fieldLineText f t b1 b2 b3) = (f, t, true) ∧
        tableLineName (List.replicate ind ' ' ++ fieldLineText f t b1 b2 b3) = none ∧
        fieldLineDef (List.replicate ind ' ' ++ fieldLineText f t b1 b2 b3) =
          some ⟨f, t⟩) ∧
    (∀ (ind : Nat) (bt b1 b2 b3 : Bool) (decls : List Table),
      (∀ T ∈ decls, declOk b1 b2 b3 T) →
      ∃ m, parseLines i o n (renderSchema ind bt b1 b2 b3 decls) = some m ∧
        m.Tables = decls.filter (fun T => decide (T.Name ≠ "Pagination".toList))) := by
  refine ⟨?_, ?_, ?_, ?_⟩
  · intro lines
    obtain ⟨m, h, ht⟩ := parseLines_tables i o n lines
    exact ⟨m, h, ht, by rw [ht, specTables_names]⟩
  · intro T b hT hw
    exact ⟨findTable_tableLineText T b hT hw, tableLineName_tableLineText T b hT hw⟩
  · intro ind f t b1 b2 b3 hf hfw ht htw hns hrt
    obtain ⟨h1, h2⟩ := fieldLine_kinds ind f t b1 b2 b3 hf hfw ht htw hns hrt
    exact ⟨findField_fieldLineText f t b1 b2 b3 hf hfw ht htw, h1, h2⟩
  · intro ind bt b1 b2 b3 decls hd
    obtain ⟨m, h, ht⟩ := parseLines_tables i o n (renderSchema ind bt b1 b2 b3 decls)
    exact ⟨m, h, by rw [ht, specTables_render ind bt b1 b2 b3 decls hd]⟩

/-- C1 at the schema of the tables `A` (`x: int`, `data: [ubyte]`), `Pagination`
(`page: int`) and `B` (`y: string`), written with fields indented by two spaces. -/
theorem parse_tables_in_declaration_order_witness :
    renderSchema 2 true false true false
        [⟨"A".toList, [⟨"x".toList, "int".toList⟩, ⟨"data".toList, "[ubyte]".toList⟩]⟩,
          ⟨"Pagination".toList, [⟨"page".toList, "int".toList⟩]⟩,
          ⟨"B".toList, [⟨"y".toList, "string".toList⟩]⟩] =
      ["table A \x7b".toList, "  x: int;".toList, "  data: [ubyte];".toList, "\x7d".toList,
        "table Pagination \x7b".toList, "  page: int;".toList, "\x7d".toList,
        "table B \x7b".toList, "  y: string;".toList, "\x7d".toList] ∧
      ∃ m, parseLines [] [] [] (renderSchema 2 true false true false
          [⟨"A".toList, [⟨"x".toList, "int".toList⟩, ⟨"data".toList, "[ubyte]".toList⟩]⟩,
            ⟨"Pagination".toList, [⟨"page".toList, "int".toList⟩]⟩,
            ⟨"B".toList, [⟨"y".toList, "string".toList⟩]⟩]) = some m ∧
        m.Tables =
          [⟨"A".toList, [⟨"x".toList, "int".toList⟩, ⟨"data".toList, "[ubyte]".toList⟩]⟩,
            ⟨"B".toList, [⟨"y".toList, "string".toList⟩]⟩] :=
  ⟨by decide,
    (parse_tables_in_declaration_order [] [] []).2.2.2 2 true false true false
      [⟨"A".toList, [⟨"x".toList, "int".toList⟩, ⟨"data".toList, "[ubyte]".toList⟩]⟩,
        ⟨"Pagination".toList, [⟨"page".toList, "int".toList⟩]⟩,
        ⟨"B".toList, [⟨"y".toList, "string".toList⟩]⟩]
      (by
        intro T hT
        simp only [List.mem_cons, List.mem_singleton, List.not_mem_nil, or_false] at hT
        rcases hT with rfl | rfl | rfl <;> (unfold declOk; decide))⟩

/-- C2, refuted as stated: on the three lines `namespace a.b.c;`,
`table Item { id: int; name: string; }`, `root_type Item;` the parser does not
return a model whose table `Item` has the fields (`id`, `int`), (`name`, `string`). -/
theorem parse_item_example_inline_fields_refuted :
    ¬ ∃ m, parseLines [] [] []
        ["namespace a.b.c;".toList, "table Item \x7b id: int; name: string; \x7d".toList,
          "root_type Item;".toList] = some m ∧
      m.Package = "c".toList ∧ m.RootType = "Item".toList ∧
      m.Tables = [⟨"Item".toList, [⟨"id".toList, "int".toList⟩,
        ⟨"name".toList, "string".toList⟩]⟩] := by
  have h0 : parseLines [] [] []
      ["namespace a.b.c;".toList, "table Item \x7b id: int; name: string; \x7d".toList,
        "root_type Item;".toList] =
      some ⟨[], [], [], "c".toList, "a.b.c".toList, "Item".toList,
        [⟨"Item".toList, []⟩]⟩ := by decide
  rintro ⟨m, h, -, -, ht⟩
  rw [h0] at h
  cases h
  revert ht
  decide

/-- C2, amended: the three lines give Package `c`, RootType `Item` and exactly one
table `Item` with no field, since the table rule consumes the second line; with the
two declarations on lines of their own the fields are (`id`, `int`), (`name`,
`string`), whose mapped target types are `int32` and `string`. -/
theorem parse_item_example (i o n : Str) :
    (∃ m, parseLines i o n
        ["namespace a.b.c;".toList, "table Item \x7b id: int; name: string; \x7d".toList,
          "root_type Item;".toList] = some m ∧
      m.Package = "c".toList ∧ m.RootType = "Item".toList ∧
      m.Tables = [⟨"Item".toList, []⟩]) ∧
    (∃ m, parseLines i o n
        ["namespace a.b.c;".toList, "table Item \x7b".toList, "id: int;".toList,
          "name: string;".toList, "\x7d".toList, "root_type Item;".toList] = some m ∧
      m.Package = "c".toList ∧ m.RootType = "Item".toList ∧
      m.Tables = [⟨"Item".toList, [⟨"id".toList, "int".toList⟩,
        ⟨"name".toList, "string".toList⟩]⟩]) ∧
    (typeMapping "int".toList).Typ = "int32".toList ∧
    (typeMapping "string".toList).Typ = "string".toList := by
  have hns : ∀ st : ParseState, processLine st "namespace a.b.c;".toList =
      some { st with NameSpace := "a.b.c".toList, Package := "c".toList } := fun st =>
    processLine_namespace (by decide) (by decide) (by decide)
  have hrt : ∀ st : ParseState, processLine st "root_type Item;".toList =
      some { st with RootType := "Item".toList } := fun st =>
    processLine_rootType (by decide) (by decide) (by decide) (by decide)
  have htb1 : ∀ st : ParseState,
      processLine st "table Item \x7b id: int; name: string; \x7d".toList = _ := fun st =>
    processLine_table st "Item".toList (by decide) (by decide)
  have htb2 : ∀ st : ParseState, processLine st "table Item \x7b".toList = _ := fun st =>
    processLine_table st "Item".toList (by decide) (by decide)
  have hf1 : ∀ (st : ParseState) p t, st.pendingTable = some p → st.heap[p]? = some t →
      processLine st "id: int;".toList = _ := fun st p t hp ht =>
    processLine_field st ⟨"id".toList, "int".toList⟩ (by decide) hp ht
  have hf2 : ∀ (st : ParseState) p t, st.pendingTable = some p → st.heap[p]? = some t →
      processLine st "name: string;".toList = _ := fun st p t hp ht =>
    processLine_field st ⟨"name".toList, "string".toList⟩ (by decide) hp ht
  have hcl : ∀ st : ParseState, processLine st "\x7d".toList = some st := fun st =>
    processLine_unmatched (by decide) (by decide) (by decide) (by decide) (by decide)
  have h3 : parseLines i o n
      ["namespace a.b.c;".toList, "table Item \x7b id: int; name: string; \x7d".toList,
        "root_type Item;".toList] =
      some ⟨i, o, n, "c".toList, "a.b.c".toList, "Item".toList, [⟨"Item".toList, []⟩]⟩ := by
    simp only [parseLines, scanLoop, initState, hns, htb1, hrt]
    simp [ParseState.toFbs, derefAll]
  have h6 : parseLines i o n
      ["namespace a.b.c;".toList, "table Item \x7b".toList, "id: int;".toList,
        "name: string;".toList, "\x7d".toList, "root_type Item;".toList] =
      some ⟨i, o, n, "c".toList, "a.b.c".toList, "Item".toList,
        [⟨"Item".toList, [⟨"id".toList, "int".toList⟩, ⟨"name".toList, "string".toList⟩]⟩]⟩ := by
    simp only [parseLines, scanLoop, initState, hns, htb2]
    rw [hf1 _ 0 ⟨"Item".toList, []⟩ rfl (by simp)]
    simp only []
    rw [hf2 _ 0 ⟨"Item".toList, [⟨"id".toList, "int".toList⟩]⟩ rfl (by simp)]
    simp only [hcl, hrt]
    simp [ParseState.toFbs, derefAll]
  exact ⟨⟨_, h3, rfl, rfl, rfl⟩, ⟨_, h6, rfl, rfl, rfl⟩, by decide, by decide⟩

/-- C7: for every sequence of input lines no table of the model is named
`Pagination`; and the lines that follow a `table Pagination` line up to the next
table line add nothing to any table: removing them leaves `Tables` (names and
fields) as it is, and when nothing follows them `Tables` is what the lines before
the `Pagination` line alone give, the formerly pending table included. -/
theorem pagination_block_dropped (i o n : Str) :
    (∀ lines, ∃ m, parseLines i o n lines = some m ∧
      ∀ t ∈ m.Tables, t.Name ≠ "Pagination".toList) ∧
    (∀ (pre mid rest : List Str) (pag : Str),
      tableLineName pag = some "Pagination".toList →
      (∀ l ∈ mid, tableLineName l = none) →
      ∃ m m' m'', parseLines i o n (pre ++ pag :: (mid ++ rest)) = some m ∧
        parseLines i o n (pre ++ pag :: rest) = some m' ∧
        parseLines i o n (pre ++ pag :: mid) = some m'' ∧
        m.Tables = m'.Tables ∧
        (∃ m0, parseLines i o n pre = some m0 ∧ m''.Tables = m0.Tables)) := by
  constructor
  · intro lines
    obtain ⟨m, h, ht⟩ := parseLines_tables i o n lines
    exact ⟨m, h, by rw [ht]; exact specTables_no_pagination lines⟩
  · intro pre mid rest pag hpag hmid
    obtain ⟨m, h, ht⟩ := parseLines_tables i o n (pre ++ pag :: (mid ++ rest))
    obtain ⟨m', h', ht'⟩ := parseLines_tables i o n (pre ++ pag :: rest)
    obtain ⟨m'', h'', ht''⟩ := parseLines_tables i o n (pre ++ pag :: mid)
    obtain ⟨m0, h0, ht0⟩ := parseLines_tables i o n pre
    refine ⟨m, m', m'', h, h', h'', ?_, m0, h0, ?_⟩
    · rw [ht, ht', specTables_append_pagination _ _ _ hpag,
        specTables_append_pagination _ _ _ hpag, specTables_skip _ _ hmid]
    · have := specTables_skip mid [] hmid
      rw [List.append_nil] at this
      rw [ht'', ht0, specTables_append_pagination _ _ _ hpag, this]
      simp [specTables]

/-- C7 at the lines `table A {`, `x: int;`, `table Pagination {`, `page: int;`,
`size: int;`, `table B {`, `y: int;`. -/
theorem pagination_block_dropped_witness :
    ∃ m m' m'', parseLines [] [] []
        (["table A \x7b".toList, "x: int;".toList] ++ "table Pagination \x7b".toList ::
          (["page: int;".toList, "size: int;".toList] ++
            ["table B \x7b".toList, "y: int;".toList])) = some m ∧
      parseLines [] [] []
        (["table A \x7b".toList, "x: int;".toList] ++ "table Pagination \x7b".toList ::
          ["table B \x7b".toList, "y: int;".toList]) = some m' ∧
      parseLines [] [] []
        (["table A \x7b".toList, "x: int;".toList] ++ "table Pagination \x7b".toList ::
          ["page: int;".toList, "size: int;".toList]) = some m'' ∧
      m.Tables = m'.Tables ∧
      (∃ m0, parseLines [] [] [] ["table A \x7b".toList, "x: int;".toList] = some m0 ∧
        m''.Tables = m0.Tables) :=
  (pagination_block_dropped [] [] []).2 ["table A \x7b".toList, "x: int;".toList]
    ["page: int;".toList, "size: int;".toList] ["table B \x7b".toList, "y: int;".toList]
    "table Pagination \x7b".toList (by decide) (by decide)

/-- C8: when no line of a prefix of the input is handled as a table line, the loop
leaves `Tables` empty (and no table pending) after the prefix, and the tables of the
final model are those of the rest of the input alone: no field of the model comes
from a line of the prefix. -/
theorem dangling_fields_dropped (i o n : Str) (pre rest : List Str)
    (hpre : ∀ l ∈ pre, tableLineName l = none) :
    (∃ st, scanLoop (initState i o n) pre = some st ∧ st.Tables = [] ∧ st.heap = [] ∧
      st.pendingTable = none) ∧
    (∃ m m', parseLines i o n (pre ++ rest) = some m ∧ parseLines i o n rest = some m' ∧
      m.Tables = m'.Tables) := by
  have hnil : specTables pre = [] := by
    have := specTables_skip pre [] hpre
    rwa [List.append_nil] at this
  constructor
  · obtain ⟨st, h, hw, hh⟩ := scanLoop_heap pre (initState i o n) (initState_WF i o n)
    have hheap : st.heap = [] := by
      rw [hh, hnil]
      rfl
    refine ⟨st, h, ?_, hheap, ?_⟩
    · rw [hw.1, hheap]
      rfl
    · rcases hp : st.pendingTable with _ | p
      · rfl
      · have := hw.2 p hp
        rw [hheap] at this
        simp at this
  · obtain ⟨m, h, ht⟩ := parseLines_tables i o n (pre ++ rest)
    obtain ⟨m', h', ht'⟩ := parseLines_tables i o n rest
    exact ⟨m, m', h, h', by rw [ht, ht', specTables_skip _ _ hpre]⟩

/-- C8 at the prefix `x: int;`, `root_type A;` followed by `table A {`, `y: int;`. -/
theorem dangling_fields_dropped_witness :
    (∃ st, scanLoop (initState [] [] []) ["x: int;".toList, "root_type A;".toList] = some st ∧
      st.Tables = [] ∧ st.heap = [] ∧ st.pendingTable = none) ∧
    (∃ m m', parseLines [] [] [] (["x: int;".toList, "root_type A;".toList] ++
        ["table A \x7b".toList, "y: int;".toList]) = some m ∧
      parseLines [] [] [] ["table A \x7b".toList, "y: int;".toList] = some m' ∧
      m.Tables = m'.Tables) :=
  dangling_fields_dropped [] [] [] ["x: int;".toList, "root_type A;".toList]
    ["table A \x7b".toList, "y: int;".toList] (by decide)

/-- C9: for every dotted identifier `N = s1.s2.….sn` (at least one segment, each a
non-empty word) and every state of the loop, the line `namespace N;` sets `NameSpace`
to `N` and `Package` to the last segment `sn`, and changes nothing else: `RootType`,
`Tables`, the tables' contents and the pending table stay as they are. -/
theorem namespace_line_sets_namespace_and_package (st : ParseState) (segs : List Str)
    (hne : segs ≠ []) (hid : ∀ s ∈ segs, s ≠ [] ∧ ∀ c ∈ s, reWord c = true) :
    processLine st ("namespace ".toList ++ dotted segs ++ ";".toList) =
      some { st with NameSpace := dotted segs, Package := segs.getLast hne } :=
  processLine_dotted st segs hne hid

/-- C9 at `namespace a.b.c;` and at `namespace pkg;`, from the state before the loop. -/
theorem namespace_line_sets_namespace_and_package_witness :
    processLine (initState [] [] [])
        ("namespace ".toList ++ dotted ["a".toList, "b".toList, "c".toList] ++ ";".toList) =
      some { initState [] [] [] with NameSpace := "a.b.c".toList, Package := "c".toList } :=
  namespace_line_sets_namespace_and_package (initState [] [] [])
    ["a".toList, "b".toList, "c".toList] (by decide) (by decide)

/-- C3: in the text generated for any model, the Create routine of every table `T`
is, after its comment and signature, these lines in this order: the builder
allocation; the payload-construction lines of the fields (`CreateString` for `string`
fields; `StartVector`, the loop and `EndVector` for `[ubyte]` fields); the one
table-open line; the Add lines of the fields; the `End`, `Finish`, `FinishedBytes`
and `return buf` lines. No payload line follows the table-open line and no Add line
precedes it. -/
theorem create_routine_two_pass_order (toCamel : Str → Str) (fbs : Fbs)
    (ts1 ts2 : List Table) (T : Table) :
    generateGoCode toCamel { fbs with Tables := ts1 ++ T :: ts2 } =
      generateGoCode toCamel { fbs with Tables := ts1 } ++ carrierText toCamel T
        ++ createHead toCamel T
        ++ (["builder := flatbuffers.NewBuilder(1024)\n".toList]
            ++ (T.Fields.map (payloadLines toCamel T)).flatten
            ++ [toCamel T.Name ++ "Start(builder)\n".toList]
            ++ (T.Fields.map (addLines toCamel T)).flatten
            ++ ["new".toList ++ toCamel T.Name ++ " := ".toList ++ toCamel T.Name
                  ++ "End(builder)\n".toList,
                "builder.Finish(new".toList ++ toCamel T.Name ++ ")\n".toList,
                "buf := builder.FinishedBytes()\n".toList,
                "return buf\n".toList]).flatten
        ++ "\x7d\n\n".toList ++ readText toCamel T
        ++ (ts2.map (tableBlock toCamel)).flatten := by
  rw [generateGoCode_split]
  simp only [tableBlock, createText, createLines, List.append_assoc]

/-- C4: for a table `T` whose fields all have types of the mapping, pass 2 emits one
Add line per field, in `Fields` order, `<Camel(T)>Add<Camel(F)>(builder, X)`, where
`X` is `value.<Camel(F)>` for a scalar field and otherwise the identifier bound by the
last payload-construction line pass 1 emits for that field. With `Item`, `id`, `name`
camel-cased to `Item`, `Id`, `Name`, the table `Item` with `id: int`, `name: string`
gets the calls `ItemAddId` and `ItemAddName`. -/
theorem add_lines_reference_bound_offsets (toCamel : Str → Str) (T : Table) (out : Str)
    (hknown : ∀ f ∈ T.Fields, f.Typ ∈ knownTypes)
    (hItem : toCamel "Item".toList = "Item".toList)
    (hId : toCamel "id".toList = "Id".toList)
    (hName : toCamel "name".toList = "Name".toList) :
    genAdds toCamel T out T.Fields =
        out ++ (T.Fields.map (fun f =>
          toCamel T.Name ++ "Add".toList ++ toCamel f.Name ++ "(builder, ".toList
            ++ (if isScalarType f.Typ then "value.".toList ++ toCamel f.Name
                else boundIdent toCamel f)
            ++ ")\n".toList)).flatten ∧
      genPayloads toCamel T out T.Fields =
        out ++ ((T.Fields.map (payloadLines toCamel T)).flatten).flatten ∧
      (∀ f ∈ T.Fields, isScalarType f.Typ = false →
        ∃ init call, payloadLines toCamel T f =
          init ++ [boundIdent toCamel f ++ " := builder.".toList ++ call]) ∧
      genAdds toCamel ⟨"Item".toList, [⟨"id".toList, "int".toList⟩,
          ⟨"name".toList, "string".toList⟩]⟩ out
          [⟨"id".toList, "int".toList⟩, ⟨"name".toList, "string".toList⟩] =
        out ++ "ItemAddId(builder, value.Id)\nItemAddName(builder, Name)\n".toList := by
  refine ⟨?_, genPayloads_eq toCamel T out T.Fields, ?_, ?_⟩
  · rw [genAdds_eq, flatten_lines]
    congr 2
    apply List.map_congr_left
    intro f hf
    simp only [addLines, hknown f hf, if_true, addArg, List.flatten_cons, List.flatten_nil,
      List.append_nil]
  · intro f hf hs
    have hk := (mem_knownTypes f.Typ).mp (hknown f hf)
    rw [hs] at hk
    rcases hk with hk | hk | hk
    · cases hk
    · refine ⟨[], "CreateString(value.".toList ++ toCamel f.Name ++ ")\n".toList, ?_⟩
      simp [payloadLines, hk]
    · have hne : f.Typ ≠ "string".toList := by
        rw [hk]
        decide
      refine ⟨[toCamel T.Name ++ "Start".toList ++ toCamel f.Name
            ++ "Vector(builder, len(value.".toList ++ toCamel f.Name ++ "))\n".toList,
          "for i := len(value.".toList ++ toCamel f.Name ++ "); i >= 0; i-- \x7b\n".toList,
          "builder.PrependByte(byte(i))\n".toList, "\x7d\n".toList],
        "EndVector(len(value.".toList ++ toCamel f.Name ++ "))\n".toList, ?_⟩
      rw [payloadLines, if_neg hne, if_pos hk]
      simp only [List.cons_append, List.nil_append, List.append_assoc]
      rfl
  · rw [genAdds_eq]
    have h1 : isScalarType "int".toList = true := by decide
    have h2 : isScalarType "string".toList = false := by decide
    have h3 : "int".toList ∈ knownTypes := by decide
    have h4 : "string".toList ∈ knownTypes := by decide
    simp only [List.map_cons, List.map_nil, addLines, addArg, boundIdent, h1, h2, h3, h4,
      if_true, if_false, hItem, hId, hName, List.flatten_cons, List.flatten_nil,
      Bool.false_eq_true, List.append_nil]
    rfl

/-- C4 at the table `Item` with `id: int`, `name: string`, `raw: [ubyte]` and the
camel-casing `upperFirst`. -/
theorem add_lines_reference_bound_offsets_witness :
    genAdds upperFirst ⟨"Item".toList, [⟨"id".toList, "int".toList⟩,
          ⟨"name".toList, "string".toList⟩, ⟨"raw".toList, "[ubyte]".toList⟩]⟩ []
        [⟨"id".toList, "int".toList⟩, ⟨"name".toList, "string".toList⟩,
          ⟨"raw".toList, "[ubyte]".toList⟩] =
      ("ItemAddId(builder, value.Id)\nItemAddName(builder, Name)\n".toList
        ++ "ItemAddRaw(builder, raw)\n".toList) :=
  ((add_lines_reference_bound_offsets upperFirst ⟨"Item".toList,
      [⟨"id".toList, "int".toList⟩, ⟨"name".toList, "string".toList⟩,
        ⟨"raw".toList, "[ubyte]".toList⟩]⟩ [] (by decide) (by decide) (by decide)
      (by decide)).1).trans (by decide)

/-- C5: the generated text is the header comment naming `SourceName`, the package
declaration, the import block, and then one block per table in `Tables` order; each
block starts with the carrier definition `type X<Camel(T)> struct` with one member
line `<Camel(name)> <target type>` per field in `Fields` order, and the target types
of `long`, `int`, `float`, `double`, `bool`, `string`, `[ubyte]` are `int64`, `int32`,
`float32`, `float64`, `bool`, `string`, `[]byte`. -/
theorem generated_text_layout (toCamel : Str → Str) (fbs : Fbs) :
    generateGoCode toCamel fbs =
        "// Code generated by flat-code-gen-fo. DO NOT EDIT.\n// source: ".toList
          ++ fbs.SourceName ++ "\n\n".toList
          ++ ("package ".toList ++ fbs.Package ++ "\n\n".toList)
          ++ "import (\n\tflatbuffers \"github.com/google/flatbuffers/go\"\n)\n\n".toList
          ++ (fbs.Tables.map (fun T =>
              ("type X".toList ++ toCamel T.Name ++ " struct \x7b\n".toList
                ++ (T.Fields.map (fun f => "\t".toList ++ toCamel f.Name ++ " ".toList
                      ++ (typeMapping f.Typ).Typ ++ "\n".toList)).flatten
                ++ "\x7d\n".toList)
              ++ (createText toCamel T ++ readText toCamel T))).flatten ∧
      (typeMapping "long".toList).Typ = "int64".toList ∧
      (typeMapping "int".toList).Typ = "int32".toList ∧
      (typeMapping "float".toList).Typ = "float32".toList ∧
      (typeMapping "double".toList).Typ = "float64".toList ∧
      (typeMapping "bool".toList).Typ = "bool".toList ∧
      (typeMapping "string".toList).Typ = "string".toList ∧
      (typeMapping "[ubyte]".toList).Typ = "[]byte".toList := by
  refine ⟨?_, by decide, by decide, by decide, by decide, by decide, by decide, by decide⟩
  have hm : (fun f : Field => "\t".toList ++ toCamel f.Name ++ " ".toList
      ++ (typeMapping f.Typ).Typ ++ "\n".toList) = memberLine toCamel := by
    funext f
    simp only [memberLine, typeMapping_Typ]
  have hb : (fun T : Table =>
      ("type X".toList ++ toCamel T.Name ++ " struct \x7b\n".toList
        ++ (T.Fields.map (fun f => "\t".toList ++ toCamel f.Name ++ " ".toList
              ++ (typeMapping f.Typ).Typ ++ "\n".toList)).flatten
        ++ "\x7d\n".toList)
      ++ (createText toCamel T ++ readText toCamel T)) = tableBlock toCamel := by
    funext T
    rw [hm]
    simp only [tableBlock, carrierText, List.append_assoc]
  rw [generateGoCode_eq, hb]
  simp only [preambleText, List.append_assoc]

/-- C6: in the text generated for any model, the Read routine of every table `T` is,
after its comment and signature: the line `new<T> := GetRootAs<T>(buf, 0)`, the nil
check that returns nil, then in `Fields` order one assignment `value.<F> = new<T>.<F>()`
per scalar field and one assignment `value.<F> = string(new<T>.<F>())` per `string`
field, then `return value`; a `[ubyte]` field gets no assignment. -/
theorem read_routine_lines (toCamel : Str → Str) (fbs : Fbs) (ts1 ts2 : List Table)
    (T : Table) :
    generateGoCode toCamel { fbs with Tables := ts1 ++ T :: ts2 } =
        generateGoCode toCamel { fbs with Tables := ts1 } ++ carrierText toCamel T
          ++ createText toCamel T ++ readHead toCamel T
          ++ (["new".toList ++ toCamel T.Name ++ " := GetRootAs".toList ++ toCamel T.Name
                  ++ "(buf, 0)\n".toList,
                "if new".toList ++ toCamel T.Name
                  ++ " == nil \x7b\nreturn nil\n\x7d\n".toList]
              ++ (T.Fields.map (fun f =>
                    if isScalarType f.Typ then
                      ["value.".toList ++ toCamel f.Name ++ " = new".toList ++ toCamel T.Name
                        ++ ".".toList ++ toCamel f.Name ++ "()\n".toList]
                    else if f.Typ = "string".toList then
                      ["value.".toList ++ toCamel f.Name ++ " = string(new".toList
                        ++ toCamel T.Name ++ ".".toList ++ toCamel f.Name ++ "())\n".toList]
                    else [])).flatten
              ++ ["return value\n".toList]).flatten
          ++ "\x7d\n".toList
          ++ (ts2.map (tableBlock toCamel)).flatten ∧
      isScalarType "[ubyte]".toList = false ∧ "[ubyte]".toList ≠ "string".toList ∧
      isScalarType "string".toList = false ∧
      (∀ i : Fin scalarTypes.length, isScalarType (scalarTypes.get i) = true) ∧
      (∀ ty, (typeMapping ty).IsScalar = isScalarType ty) := by
  refine ⟨?_, by decide, by decide, by decide, by decide, typeMapping_IsScalar⟩
  have hr : (fun f : Field =>
      if isScalarType f.Typ then
        ["value.".toList ++ toCamel f.Name ++ " = new".toList ++ toCamel T.Name
          ++ ".".toList ++ toCamel f.Name ++ "()\n".toList]
      else if f.Typ = "string".toList then
        ["value.".toList ++ toCamel f.Name ++ " = string(new".toList
          ++ toCamel T.Name ++ ".".toList ++ toCamel f.Name ++ "())\n".toList]
      else []) = readLines toCamel T := by
    funext f
    rfl
  rw [generateGoCode_split, hr]
  simp only [tableBlock, readText, readBodyLines, List.append_assoc]

/-- C10: a field `f` whose type the mapping does not know does not stop generation:
its target type is empty, it has no payload-construction, Add or Read line, and the
text of a model whose table `T` has the fields `pre`, `f`, `post` is the text of the
model without `f` with the one member line `<Camel(f)> ` (empty type) inserted after
the members of `pre` in the carrier struct of `T`; everything else is the same. -/
theorem unknown_type_tolerated (toCamel : Str → Str) (fbs : Fbs) (ts1 ts2 : List Table)
    (nm : Str) (pre post : List Field) (f : Field) (hf : f.Typ ∉ knownTypes) :
    typeMapping f.Typ = ⟨false, []⟩ ∧
      payloadLines toCamel ⟨nm, pre ++ f :: post⟩ f = [] ∧
      addLines toCamel ⟨nm, pre ++ f :: post⟩ f = [] ∧
      readLines toCamel ⟨nm, pre ++ f :: post⟩ f = [] ∧
      ∃ B,
        generateGoCode toCamel { fbs with Tables := ts1 ++ ⟨nm, pre ++ post⟩ :: ts2 } =
          (generateGoCode toCamel { fbs with Tables := ts1 }
            ++ "type X".toList ++ toCamel nm ++ " struct \x7b\n".toList
            ++ (pre.map (memberLine toCamel)).flatten) ++ B ∧
        generateGoCode toCamel { fbs with Tables := ts1 ++ ⟨nm, pre ++ f :: post⟩ :: ts2 } =
          (generateGoCode toCamel { fbs with Tables := ts1 }
            ++ "type X".toList ++ toCamel nm ++ " struct \x7b\n".toList
            ++ (pre.map (memberLine toCamel)).flatten)
            ++ ("\t".toList ++ toCamel f.Name ++ " ".toList ++ [] ++ "\n".toList) ++ B := by
  have hk := (mem_knownTypes f.Typ).not.mp hf
  simp only [not_or] at hk
  obtain ⟨hs, hstr, hby⟩ := hk
  have hs' : isScalarType f.Typ = false := by simpa using hs
  have hT : targetType f.Typ = [] := by
    have hm : ∀ ty ∈ scalarTypes, f.Typ ≠ ty := fun ty hty he => by
      rw [← he] at hty
      exact hs (by simpa [isScalarType] using hty)
    unfold targetType
    rw [if_neg (hm _ (by decide)), if_neg (hm _ (by decide)), if_neg (hm _ (by decide)),
      if_neg (hm _ (by decide)), if_neg (hm _ (by decide)), if_neg hstr, if_neg hby]
  have hpay : ∀ fs, payloadLines toCamel ⟨nm, fs⟩ f = [] := fun fs => by
    simp only [payloadLines, hstr, hby, if_false]
  have hadd : ∀ fs, addLines toCamel ⟨nm, fs⟩ f = [] := fun fs => by
    simp only [addLines, hf, if_false]
  have hread : ∀ fs, readLines toCamel ⟨nm, fs⟩ f = [] := fun fs => by
    simp only [readLines, hs', hstr, if_false, Bool.false_eq_true]
  refine ⟨?_, hpay _, hadd _, hread _, ?_⟩
  · have h1 := typeMapping_Typ f.Typ
    have h2 := typeMapping_IsScalar f.Typ
    rw [hT] at h1
    rw [hs'] at h2
    rcases hv : typeMapping f.Typ with ⟨b, t⟩
    rw [hv] at h1 h2
    simp only at h1 h2
    rw [h1, h2]
  · have hcreate : createText toCamel ⟨nm, pre ++ f :: post⟩ =
        createText toCamel ⟨nm, pre ++ post⟩ := by
      have hp : ∀ fs fs', payloadLines toCamel ⟨nm, fs⟩ = payloadLines toCamel ⟨nm, fs'⟩ :=
        fun _ _ => rfl
      have ha : ∀ fs fs', addLines toCamel ⟨nm, fs⟩ = addLines toCamel ⟨nm, fs'⟩ :=
        fun _ _ => rfl
      simp only [createText, createHead, createLines, List.map_append, List.map_cons,
        hpay, hadd, List.flatten_append, List.flatten_cons, List.nil_append,
        hp (pre ++ f :: post) (pre ++ post), ha (pre ++ f :: post) (pre ++ post)]
    have hreadT : readText toCamel ⟨nm, pre ++ f :: post⟩ =
        readText toCamel ⟨nm, pre ++ post⟩ := by
      have hr : ∀ fs fs', readLines toCamel ⟨nm, fs⟩ = readLines toCamel ⟨nm, fs'⟩ :=
        fun _ _ => rfl
      simp only [readText, readHead, readBodyLines, List.map_append, List.map_cons,
        hread, List.flatten_append, List.flatten_cons, List.nil_append,
        hr (pre ++ f :: post) (pre ++ post)]
    refine ⟨(post.map (memberLine toCamel)).flatten ++ "\x7d\n".toList
      ++ createText toCamel ⟨nm, pre ++ post⟩ ++ readText toCamel ⟨nm, pre ++ post⟩
      ++ (ts2.map (tableBlock toCamel)).flatten, ?_, ?_⟩
    · rw [generateGoCode_split]
      simp only [tableBlock, carrierText, List.map_append, List.flatten_append,
        List.append_assoc]
    · rw [generateGoCode_split]
      simp only [tableBlock, carrierText, hcreate, hreadT, List.map_append, List.map_cons,
        List.flatten_append, List.flatten_cons, memberLine, hT, List.append_assoc]

/-- C10 at a table `T` with the fields `id: int`, `u: uint`, `name: string`, between
the tables `A` and `B`, with the camel-casing `upperFirst`. -/
theorem unknown_type_tolerated_witness :
    typeMapping "uint".toList = ⟨false, []⟩ ∧
      payloadLines upperFirst ⟨"T".toList, [⟨"id".toList, "int".toList⟩]
        ++ ⟨"u".toList, "uint".toList⟩ :: [⟨"name".toList, "string".toList⟩]⟩
        ⟨"u".toList, "uint".toList⟩ = [] ∧
      addLines upperFirst ⟨"T".toList, [⟨"id".toList, "int".toList⟩]
        ++ ⟨"u".toList, "uint".toList⟩ :: [⟨"name".toList, "string".toList⟩]⟩
        ⟨"u".toList, "uint".toList⟩ = [] ∧
      readLines upperFirst ⟨"T".toList, [⟨"id".toList, "int".toList⟩]
        ++ ⟨"u".toList, "uint".toList⟩ :: [⟨"name".toList, "string".toList⟩]⟩
        ⟨"u".toList, "uint".toList⟩ = [] ∧
      ∃ B,
        generateGoCode upperFirst { (⟨[], [], [], [], [], [], []⟩ : Fbs) with
            Tables := [⟨"A".toList, []⟩] ++ ⟨"T".toList, [⟨"id".toList, "int".toList⟩]
              ++ [⟨"name".toList, "string".toList⟩]⟩ :: [⟨"B".toList, []⟩] } =
          (generateGoCode upperFirst { (⟨[], [], [], [], [], [], []⟩ : Fbs) with
              Tables := [⟨"A".toList, []⟩] }
            ++ "type X".toList ++ upperFirst "T".toList ++ " struct \x7b\n".toList
            ++ ([⟨"id".toList, "int".toList⟩].map (memberLine upperFirst)).flatten) ++ B ∧
        generateGoCode upperFirst { (⟨[], [], [], [], [], [], []⟩ : Fbs) with
            Tables := [⟨"A".toList, []⟩] ++ ⟨"T".toList, [⟨"id".toList, "int".toList⟩]
              ++ ⟨"u".toList, "uint".toList⟩ :: [⟨"name".toList, "string".toList⟩]⟩
              :: [⟨"B".toList, []⟩] } =
          (generateGoCode upperFirst { (⟨[], [], [], [], [], [], []⟩ : Fbs) with
              Tables := [⟨"A".toList, []⟩] }
            ++ "type X".toList ++ upperFirst "T".toList ++ " struct \x7b\n".toList
            ++ ([⟨"id".toList, "int".toList⟩].map (memberLine upperFirst)).flatten)
            ++ ("\t".toList ++ upperFirst "u".toList ++ " ".toList ++ [] ++ "\n".toList)
            ++ B :=
  unknown_type_tolerated upperFirst ⟨[], [], [], [], [], [], []⟩
    [⟨"A".toList, []⟩] [⟨"B".toList, []⟩] "T".toList [⟨"id".toList, "int".toList⟩]
    [⟨"name".toList, "string".toList⟩] ⟨"u".toList, "uint".toList⟩ (by decide)

/-- C17: in every state, a line whose trimmed text begins with `//` (whatever
follows) and a line that matches none of the four patterns leave the whole
state as it is: `NameSpace`, `Package`, `RootType`, `Tables`, the tables and their
fields, and the pending table. -/
theorem comment_and_unmatched_lines_ignored (st : ParseState) (text : Str)
    (h : "//".toList.isPrefixOf (trimSpace text) = true ∨
      ((findNameSpace (trimSpace text)).2 = false ∧ (findTable (trimSpace text)).2 = false ∧
        (findRootType (trimSpace text)).2 = false ∧
        (findField (trimSpace text)).2.2 = false)) :
    processLine st text = some st := by
  rcases hc : "//".toList.isPrefixOf (trimSpace text) with _ | _
  · rcases h with h | ⟨h1, h2, h3, h4⟩
    · rw [hc] at h
      cases h
    · exact processLine_unmatched hc h1 h2 h3 h4
  · exact processLine_comment hc

/-- C17 at the comment line `  // table A { x: int; root_type A; namespace a.b;`. -/
theorem comment_and_unmatched_lines_ignored_witness :
    processLine (initState [] [] [])
        "  // table A \x7b x: int; root_type A; namespace a.b;".toList =
      some (initState [] [] []) :=
  comment_and_unmatched_lines_ignored (initState [] [] [])
    "  // table A \x7b x: int; root_type A; namespace a.b;".toList (Or.inl (by decide))

/-- C20: for every sequence of input lines the loop completes without a panic: the
slice of `startsWith` is always in range (for any input and prefix, the empty line
included), the split of any string at `.` has at least one segment so that the index
of its last segment is in range, and the loop and the parser return a result. -/
theorem parser_never_out_of_range (i o n : Str) (lines : List Str) :
    (∀ input substr, ∃ b, startsWith input substr = some b) ∧
    (∀ ns, ∃ pkg, (stringsSplit ns '.')[(stringsSplit ns '.').length - 1]? = some pkg) ∧
    (∃ st, scanLoop (initState i o n) lines = some st) ∧
    (∃ m, parseLines i o n lines = some m) := by
  refine ⟨startsWith_isSome, fun ns => stringsSplit_last_isSome ns '.', ?_, ?_⟩
  · obtain ⟨st, h, -⟩ := scanLoop_isSome i o n lines
    exact ⟨st, h⟩
  · obtain ⟨m, h, -⟩ := parseLines_tables i o n lines
    exact ⟨m, h⟩

/-- C18: after any sequence of lines the pending table is nil or the last element of
`Tables`; and the next line, whatever it is, keeps the pointers in `Tables` as a prefix
and changes the tables in one of three ways only: not at all, by a new table without
fields at the end, or by one field appended to the fields of the last table. So no
table but the last changes, and no table or field is removed or reordered. -/
theorem pending_is_last_and_tables_only_grow (i o n : Str) (ls : List Str) (l : Str) :
    ∃ st st' m m', scanLoop (initState i o n) ls = some st ∧ processLine st l = some st' ∧
      st.toFbs = some m ∧ st'.toFbs = some m' ∧
      (st.pendingTable = none ∨ st.Tables.getLast? = st.pendingTable) ∧
      st.Tables <+: st'.Tables ∧
      (m'.Tables = m.Tables ∨ (∃ name, m'.Tables = m.Tables ++ [⟨name, []⟩]) ∨
        ∃ init t f, m.Tables = init ++ [t] ∧
          m'.Tables = init ++ [⟨t.Name, t.Fields ++ [f]⟩]) := by
  obtain ⟨st, h, hw⟩ := scanLoop_isSome i o n ls
  obtain ⟨st', h', hw', hpre, hstep⟩ := processLine_WF st hw l
  obtain ⟨m, hm, hmt, -⟩ := toFbs_of_WF hw
  obtain ⟨m', hm', hmt', -⟩ := toFbs_of_WF hw'
  refine ⟨st, st', m, m', h, h', hm, hm', pending_last_of_WF hw, hpre, ?_⟩
  rw [hmt, hmt']
  exact hstep

/-- C19: a line handled by the field rule while a table is pending appends exactly one
field to that table, the one the leftmost match of the field pattern in the trimmed
line captures (the pattern matches at no earlier position); the line
`a: int; b: string;` gives the field (`a`, `int`) only. -/
theorem field_line_appends_leftmost_match_only (st : ParseState) (text : Str) (f : Field)
    (p : Nat) (t : Table) (hf : fieldLineDef text = some f)
    (hp : st.pendingTable = some p) (ht : st.heap[p]? = some t) :
    processLine st text =
        some { st with heap := st.heap.set p { t with Fields := t.Fields ++ [f] } } ∧
      (∃ k n rest, matchHere fieldRe ((trimSpace text).drop k) =
          some (n, f.Name :: f.Typ :: rest) ∧
        ∀ j, j < k → matchHere fieldRe ((trimSpace text).drop j) = none) ∧
      fieldLineDef "a: int; b: string;".toList = some ⟨"a".toList, "int".toList⟩ := by
  refine ⟨processLine_field st f hf hp ht, ?_, by decide⟩
  obtain ⟨m, rest, hm⟩ := findField_of_fieldLineDef hf
  obtain ⟨k, n, -, hmk, hlt⟩ := findStringSubmatch_leftmost _ _ _ _ hm
  exact ⟨k, n, rest, hmk, hlt⟩

/-- C19 at the line `a: int; b: string;` with the table `A` pending. -/
theorem field_line_appends_leftmost_match_only_witness :
    processLine ⟨[⟨"A".toList, []⟩], [], [], [], [], [], [], [0], some 0⟩
        "a: int; b: string;".toList =
      some ⟨[⟨"A".toList, [⟨"a".toList, "int".toList⟩]⟩], [], [], [], [], [], [], [0],
        some 0⟩ :=
  (field_line_appends_leftmost_match_only
    ⟨[⟨"A".toList, []⟩], [], [], [], [], [], [], [0], some 0⟩ "a: int; b: string;".toList
    ⟨"a".toList, "int".toList⟩ 0 ⟨"A".toList, []⟩ (by decide) rfl (by decide)).1

/-- C11: for every non-empty word `n` and every non-empty type token `t` of word and
bracket characters, each of the eight spellings of the field line with zero or one
space before `:`, after `:` and before `;`, processed while a table is pending and
when the line matches none of the namespace, table and root_type patterns, appends
the one field (`n`, `t`) to the pending table and changes nothing else. -/
theorem field_line_spellings_append_field (st : ParseState) (n t : Str) (b1 b2 b3 : Bool)
    (p : Nat) (tbl : Table) (hn : n ≠ []) (hnw : ∀ c ∈ n, reWord c = true) (ht : t ≠ [])
    (htw : ∀ c ∈ t, reTypeChar c = true)
    (hp : st.pendingTable = some p) (hh : st.heap[p]? = some tbl)
    (hns : (findNameSpace (fieldLineText n t b1 b2 b3)).2 = false)
    (htb : (findTable (fieldLineText n t b1 b2 b3)).2 = false)
    (hrt : (findRootType (fieldLineText n t b1 b2 b3)).2 = false) :
    processLine st (fieldLineText n t b1 b2 b3) =
      some { st with heap := st.heap.set p { tbl with Fields := tbl.Fields ++ [⟨n, t⟩] } } :=
  processLine_fieldLineText st n t b1 b2 b3 p tbl hn hnw ht htw hp hh hns htb hrt

/-- C11 at the line `data : [ubyte] ;` with the table `A` pending. -/
theorem field_line_spellings_append_field_witness :
    fieldLineText "data".toList "[ubyte]".toList true true true = "data : [ubyte] ;".toList ∧
      processLine ⟨[⟨"A".toList, []⟩], [], [], [], [], [], [], [0], some 0⟩
          (fieldLineText "data".toList "[ubyte]".toList true true true) =
        some ⟨[⟨"A".toList, [⟨"data".toList, "[ubyte]".toList⟩]⟩], [], [], [], [], [], [],
          [0], some 0⟩ :=
  ⟨by decide,
    field_line_spellings_append_field
      ⟨[⟨"A".toList, []⟩], [], [], [], [], [], [], [0], some 0⟩ "data".toList
      "[ubyte]".toList true true true 0 ⟨"A".toList, []⟩ (by decide) (by decide) (by decide)
      (by decide) rfl (by decide) (by decide) (by decide) (by decide)⟩

/-- C15: on a line that is not a comment only the first rule whose pattern matches
runs, in the order namespace, table, root_type, field. A namespace match changes
`NameSpace` and `Package` only. A table match (and no namespace match) changes
`Tables`, the new table and the pending table only, whatever else the line holds: no
field is appended and `RootType` stays. A root_type match (and neither earlier match)
changes `RootType` only. With none of the three the field rule alone runs: it leaves
`NameSpace`, `Package`, `RootType`, `Tables` and the pending table as they are. -/
theorem first_matching_rule_only (st : ParseState) (text : Str)
    (hc : "//".toList.isPrefixOf (trimSpace text) = false) :
    ((findNameSpace (trimSpace text)).2 = true →
      ∃ pkg, processLine st text =
        some { st with NameSpace := (findNameSpace (trimSpace text)).1, Package := pkg }) ∧
    ((findNameSpace (trimSpace text)).2 = false → (findTable (trimSpace text)).2 = true →
      processLine st text =
        some (if (findTable (trimSpace text)).1 = "Pagination".toList then
            { st with pendingTable := none }
          else
            { st with
              heap := st.heap ++ [{ Name := (findTable (trimSpace text)).1, Fields := [] }]
              pendingTable := some st.heap.length
              Tables := st.Tables ++ [st.heap.length] })) ∧
    ((findNameSpace (trimSpace text)).2 = false → (findTable (trimSpace text)).2 = false →
      (findRootType (trimSpace text)).2 = true →
      processLine st text =
        some { st with RootType := (findRootType (trimSpace text)).1 }) ∧
    ((findNameSpace (trimSpace text)).2 = false → (findTable (trimSpace text)).2 = false →
      (findRootType (trimSpace text)).2 = false →
      ∀ st', processLine st text = some st' →
        st'.NameSpace = st.NameSpace ∧ st'.Package = st.Package ∧
        st'.RootType = st.RootType ∧ st'.Tables = st.Tables ∧
        st'.pendingTable = st.pendingTable ∧ st'.heap.length = st.heap.length) := by
  refine ⟨?_, ?_, ?_, ?_⟩
  · intro hns
    obtain ⟨pkg, hpkg⟩ := stringsSplit_last_isSome (findNameSpace (trimSpace text)).1 '.'
    rw [← List.getLast?_eq_getElem?] at hpkg
    refine ⟨pkg, processLine_namespace hc ?_ hpkg⟩
    rw [← hns]
  · intro hns htb
    have hT := tableLineName_of_match hc hns htb
    by_cases hn : (findTable (trimSpace text)).1 = "Pagination".toList
    · rw [if_pos hn]
      rw [hn] at hT
      exact processLine_pagination st hT
    · rw [if_neg hn]
      exact processLine_table st _ hT hn
  · intro hns htb hrt
    refine processLine_rootType hc hns htb ?_
    rw [← hrt]
  · intro hns htb hrt st' h
    exact processLine_field_rule_frame st st' text hc hns htb hrt h

/-- C15 at the line `table A { root_type B; x: int;`, which matches the table, the
root_type and the field pattern, with the table `Z` pending. -/
theorem first_matching_rule_only_witness :
    processLine ⟨[⟨"Z".toList, []⟩], [], [], [], [], "R".toList, [], [0], some 0⟩
        "table A \x7b root_type B; x: int;".toList =
      some ⟨[⟨"Z".toList, []⟩, ⟨"A".toList, []⟩], [], [], [], [], "R".toList, [], [0, 1],
        some 1⟩ :=
  ((first_matching_rule_only
      ⟨[⟨"Z".toList, []⟩], [], [], [], [], "R".toList, [], [0], some 0⟩
      "table A \x7b root_type B; x: int;".toList (by decide)).2.1 (by decide)
    (by decide)).trans (by decide)

/-- C12, the code at the failing input: the line `root_type Item ;` matches no pattern
and leaves every state as it is, `RootType` included, while `root_type Item;` sets
`RootType` to `Item`; the field pattern accepts the same space before its `;`. -/
theorem root_type_space_before_semicolon (st : ParseState) :
    findRootType "root_type Item ;".toList = ([], false) ∧
      processLine st "root_type Item ;".toList = some st ∧
      processLine st "root_type Item;".toList = some { st with RootType := "Item".toList } ∧
      findField "id: int ;".toList = ("id".toList, "int".toList, true) := by
  refine ⟨by decide, ?_, ?_, by decide⟩
  · exact processLine_unmatched (by decide) (by decide) (by decide) (by decide) (by decide)
  · exact processLine_rootType (by decide) (by decide) (by decide) (by decide)

/-- C14, refuted as stated: for the output root `out`, the input file `x.fbs` and
the line `namespace a.b.c;` the output file is `out/a.b.c/x.fb.go`, not
`out/a/b/c/x.fb.go`. -/
theorem output_path_nested_segments_refuted :
    (mainParse "x.fbs".toList "out".toList ["namespace a.b.c;".toList]).map
        (fun st => st.OutputFile) = some "out/a.b.c/x.fb.go".toList ∧
      (mainParse "x.fbs".toList "out".toList ["namespace a.b.c;".toList]).map
        (fun st => st.OutputFile) ≠ some "out/a/b/c/x.fb.go".toList := by
  decide

/-- C14, amended: for every non-empty output root `O`, every input path whose last
element is `<base>.fbs` (`.fbs` not occurring in `<base>`) and every input that declares
`s1.s2.….sn` in a line `namespace s1.s2.….sn;` after which the word `namespace` does
not occur again, the output file is `path.Clean` of `O/s1.s2.….sn/<base>.fb.go`: the
declared name, dots included, is a single element of the path, and `.fbs` is rewritten
to `.fb.go`. When `O` is a clean path, rooted or not, of elements other than `.` and
`..`, this is the text `O/s1.s2.….sn/<base>.fb.go` itself. -/
theorem output_path_namespace_one_segment (O dir base : Str) (segs : List Str)
    (pre post : List Str) (hO : O ≠ []) (hdir : dir = [] ∨ ∃ d, dir = d ++ ['/'])
    (hbs : ∀ c ∈ base, c ≠ '/') (hbf : occursIn ".fbs".toList base = false)
    (hseg : segs ≠ []) (hsegw : ∀ s ∈ segs, s ≠ [] ∧ ∀ c ∈ s, reWord c = true)
    (hpost : ∀ l ∈ post, occursIn "namespace".toList (trimSpace l) = false) :
    ∃ st, mainParse (dir ++ (base ++ ".fbs".toList)) O
        (pre ++ ("namespace ".toList ++ dotted segs ++ ";".toList) :: post) = some st ∧
      st.NameSpace = dotted segs ∧
      st.OutputFile =
        pathClean (O ++ '/' :: (dotted segs ++ '/' :: (base ++ ".fb.go".toList))) ∧
      ∀ (rooted : Bool) (comps : List Str), comps ≠ [] → (∀ e ∈ comps, plainElem e) →
        O = rootText rooted ++ joinSep '/' comps →
        st.OutputFile = O ++ '/' :: (dotted segs ++ '/' :: (base ++ ".fb.go".toList)) := by
  obtain ⟨st, h, hN, hout⟩ :=
    mainParse_namespace_path O dir base segs pre post hO hdir hbs hbf hseg hsegw hpost
  refine ⟨st, h, hN, hout, ?_⟩
  intro rooted comps hc hp hOeq
  rw [hout, hOeq]
  exact plain_path_text rooted comps segs base hc hp hseg hsegw hbs

/-- C14 amended, at the output root `/tmp/gen-out`, the input path
`schemas/my-schema.fbs` and the lines `// schema`, `namespace a.b.c;`, `table Item {`,
`id: int;`. -/
theorem output_path_namespace_one_segment_witness :
    ∃ st, mainParse ("schemas/".toList ++ ("my-schema".toList ++ ".fbs".toList))
        "/tmp/gen-out".toList
        (["// schema".toList] ++
          ("namespace ".toList ++ dotted ["a".toList, "b".toList, "c".toList] ++ ";".toList) ::
            ["table Item \x7b".toList, "id: int;".toList]) = some st ∧
      st.OutputFile = "/tmp/gen-out/a.b.c/my-schema.fb.go".toList :=
  match output_path_namespace_one_segment "/tmp/gen-out".toList "schemas/".toList
      "my-schema".toList ["a".toList, "b".toList, "c".toList] ["// schema".toList]
      ["table Item \x7b".toList, "id: int;".toList] (by decide)
      (Or.inr ⟨"schemas".toList, rfl⟩) (by decide) (by decide) (by decide) (by decide)
      (by decide) with
  | ⟨st, h, _, _, hplain⟩ =>
    ⟨st, h, (hplain true ["tmp".toList, "gen-out".toList] (by decide)
      (by
        intro e he
        simp only [List.mem_cons, List.mem_singleton, List.not_mem_nil, or_false] at he
        rcases he with rfl | rfl <;> (unfold plainElem; decide))
      (by decide)).trans (by decide)⟩

/-- C16, the code at the failing input: for a `[ubyte]` field the generator emits the
`StartVector` line with `len(value.F)`, the loop `for i := len(value.F); i >= 0; i--`
whose body is `builder.PrependByte(byte(i))`, and the `EndVector` line with
`len(value.F)`; the loop takes `len(value.F) + 1` values of `i` and prepends the
index, not an element of `value.F`. -/
theorem ubyte_payload_loop_emitted (toCamel : Str → Str) (T : Table) (out nm : Str)
    (n : Nat) :
    genPayloads toCamel T out [⟨nm, "[ubyte]".toList⟩] =
        out ++ (toCamel T.Name ++ "Start".toList ++ toCamel nm
            ++ "Vector(builder, len(value.".toList ++ toCamel nm ++ "))\n".toList)
          ++ ("for i := len(value.".toList ++ toCamel nm ++ "); i >= 0; i-- \x7b\n".toList)
          ++ "builder.PrependByte(byte(i))\n\x7d\n".toList
          ++ (nm ++ " := builder.EndVector(len(value.".toList ++ toCamel nm
            ++ "))\n".toList) ∧
      (emittedLoopIndices n).length = n + 1 := by
  refine ⟨?_, emittedLoopIndices_length n⟩
  have h1 : ¬ "[]byte".toList = "string".toList := by decide
  have h2 : (typeMapping "[ubyte]".toList).Typ = "[]byte".toList := by decide
  simp only [genPayloads, List.foldl, h1, h2, if_true, if_false]
